import Mathlib

/-!
Verification of the monzter link crawler.

The development shallowly embeds the crawler of this repository: the
scheme-insensitive URL identity (`withoutScheme`, src/unnamed/part_002),
the visited set (`SchemelessURLSet.EnsureContains`), the link extractor
(`uniqueLinksInPage` / `parseToAbsURL`, src/unnamed/part_001), the
depth-first crawl (`crawl` / `Crawler.Run`, src/unnamed/part_001), the
result aggregation of the concurrent variant (`collectResults`,
src/crawler.go) and the tree rendering (`URLTree.string`,
src/url_tree.go).

Go strings are modelled as `List Char` (byte-wise lexicographic order on
valid UTF-8 agrees with codepoint order).  `net/url.URL` is external to
the repository; it is modelled at its interface by the structure `GoURL`
(scheme, host, path — the components this program touches) together with
a parser `goParseURL` and printer `urlString` reflecting `url.Parse` and
`URL.String` on such URLs.
-/

abbrev Str := List Char

/-- The components of a `net/url.URL` that monzter touches.  `host` is the
authority as printed (it may include a port).  An absolute URL has a
nonempty scheme; a URL without authority has `host = []`. -/
structure GoURL where
  scheme : Str
  host : Str
  path : Str
deriving DecidableEq, Repr

/-- `URL.String()` of `net/url` restricted to scheme/host/path:
`scheme:` is printed when the scheme is nonempty, `//host` when the host
is nonempty, then the path. -/
def urlString (u : GoURL) : Str :=
  (if u.scheme = [] then [] else u.scheme ++ [':']) ++
    (if u.host = [] then [] else ['/', '/'] ++ u.host) ++ u.path

/-- Scans for a URL scheme: `some (scheme, rest)` when the input is
`scheme ++ ":" ++ rest` with a nonempty all-letter scheme, `none`
otherwise (in particular when a `/` occurs before any `:`).  This mirrors
`getScheme` of `net/url`. -/
def splitSchemeAux : Str → Str → Option (Str × Str)
  | _, [] => none
  | acc, c :: cs =>
    if c = ':' then (if acc = [] then none else some (acc.reverse, cs))
    else if c.isAlpha then splitSchemeAux (c :: acc) cs
    else none

def splitScheme (s : Str) : Option (Str × Str) :=
  splitSchemeAux [] s

/-- Splits an authority-plus-path suffix at the first `/`: the host is
everything before it, the path the remainder (starting with `/`). -/
def splitHost : Str → Str × Str
  | [] => ([], [])
  | c :: cs =>
    if c = '/' then ([], c :: cs)
    else ((splitHost cs).1.cons c, (splitHost cs).2)

def isHexChar (c : Char) : Bool :=
  c.isDigit || ('a' ≤ c && c ≤ 'f') || ('A' ≤ c && c ≤ 'F')

/-- Percent-escapes must be `%` followed by two hex digits; `net/url.Parse`
rejects a string with an invalid escape ("invalid URL escape"). -/
def validPercent : Str → Bool
  | [] => true
  | c :: cs =>
    if c = '%' then
      match cs with
      | a :: b :: rest => isHexChar a && isHexChar b && validPercent rest
      | _ => false
    else validPercent cs

/-- Interface model of `net/url.Parse` on the URL shapes this program
handles: an optional scheme, then `//host` when present, then the path.
Parsing fails exactly on invalid percent-escapes (the malformed-href case
of the crawler). -/
def goParseURL (s : Str) : Option GoURL :=
  if validPercent s then
    match splitScheme s with
    | some (sch, rest) =>
      if rest.take 2 = ['/', '/'] then
        some ⟨sch, (splitHost (rest.drop 2)).1, (splitHost (rest.drop 2)).2⟩
      else some ⟨sch, [], rest⟩
    | none =>
      if s.take 2 = ['/', '/'] then
        some ⟨[], (splitHost (s.drop 2)).1, (splitHost (s.drop 2)).2⟩
      else some ⟨[], [], s⟩
  else none

/-- `URL.Hostname()`: the host component without the port. -/
def hostname (u : GoURL) : Str :=
  u.host.takeWhile (· ≠ ':')

/-- Well-formed URL values: those for which `url.Parse (u.String())`
recovers `u` — every URL the program constructs is of this shape.
A nonempty scheme is all letters; a host contains no `/`; with a host
the path is empty or starts with `/`; without scheme and host the path
must not itself look like a scheme or an authority. -/
def wfURL (u : GoURL) : Prop :=
  validPercent (urlString u) = true ∧
    (u.scheme ≠ [] → ∀ c ∈ u.scheme, c.isAlpha = true) ∧
    (u.host ≠ [] → ('/' ∉ u.host ∧ (u.path = [] ∨ u.path.take 1 = ['/']))) ∧
    (u.host = [] → splitScheme u.path = none ∧ u.path.take 2 ≠ ['/', '/'])

instance (u : GoURL) : Decidable (wfURL u) := by
  unfold wfURL; infer_instance

/-- `withoutScheme` (src/unnamed/part_002): clone the URL by re-parsing
its string form, erase the scheme, and print it.  On the URL values of
this model the re-parse recovers the argument (`goParseURL_urlString`);
`none` is unreachable (in Go it would be a nil dereference). -/
def withoutScheme (u : GoURL) : Str :=
  match goParseURL (urlString u) with
  | some clone => urlString { clone with scheme := [] }
  | none => []

/-- Erasing the scheme component from a URL in string form, following the
spec wording "their string forms are equal after erasing the scheme
component" (spec §3).  Used only to compare against `withoutScheme`. -/
def specEraseScheme (s : Str) : Str :=
  match splitScheme s with
  | some (_, rest) => rest
  | none => s

/-! ## Visited set (src/unnamed/part_002 `SchemelessURLSet`) -/

/-- The visited set stores the scheme-less string forms of URLs.  The Go
map (and the `sync.Map` of the `LinkSet` variant in src/url_set.go) is
modelled by its set of present keys. -/
abbrev SchemelessURLSet := List Str

/-- `EnsureContains` (src/unnamed/part_002): adds `u` and returns whether
its scheme-less key was already present.  The mutation is returned as the
second component.  The `sync.Map.LoadOrStore` of src/url_set.go is
linearizable; a concurrent execution is modelled by the sequence of calls
in linearization order (see `falseObservations`). -/
def SchemelessURLSet.EnsureContains (s : SchemelessURLSet) (u : GoURL) :
    Bool × SchemelessURLSet :=
  let key := withoutScheme u
  if key ∈ s then (true, s) else (false, key :: s)

/-- Runs a sequence of `EnsureContains` calls (one per concurrent caller,
in linearization order) from initial set `s` and counts the calls that
are on key `k` and observe "did not exist" (return `false`). -/
def falseObservations (s : SchemelessURLSet) (k : Str) : List GoURL → Nat
  | [] => 0
  | u :: us =>
    (if withoutScheme u = k ∧ (SchemelessURLSet.EnsureContains s u).1 = false
      then 1 else 0) +
      falseObservations (SchemelessURLSet.EnsureContains s u).2 k us

/-! ## HTML documents (interface of golang.org/x/net/html) -/

/-- An attribute of an HTML element (`html.Attribute`). -/
structure HAttr where
  key : Str
  val : Str
deriving DecidableEq, Repr

/-- `html.NodeType`, restricted to the kinds the walker distinguishes. -/
inductive NodeKind where
  | elementNode
  | textNode
  | documentNode
  | commentNode
  | doctypeNode
deriving DecidableEq, Repr

mutual

/-- A parsed HTML node (`html.Node`): kind, tag name (`Data`), attributes
and children. -/
inductive HtmlNode where
  | mk (kind : NodeKind) (data : Str) (attrs : List HAttr)
      (children : HtmlForest)

/-- A sibling chain of nodes: `html.Node` links its children as a list
via `FirstChild`/`NextSibling`, which this mirrors. -/
inductive HtmlForest where
  | nil
  | cons (n : HtmlNode) (rest : HtmlForest)

end

def HtmlNode.attrs : HtmlNode → List HAttr
  | .mk _ _ a _ => a

/-- Builds a sibling chain from a list of nodes. -/
def forestOf : List HtmlNode → HtmlForest
  | [] => .nil
  | n :: rest => .cons n (forestOf rest)

mutual

/-- `walkLinks` (src/unnamed/part_001) at one node: an `<a>` element is
collected and the walk does not descend into its children; any other
node's children are walked. -/
def anchorsNode : HtmlNode → List HtmlNode
  | .mk k d a cs =>
    if k = .elementNode ∧ d = "a".data then [.mk k d a cs]
    else anchorsForest cs

/-- `walkLinks` over a sibling chain (`for c := n.FirstChild; c != nil;
c = c.NextSibling`), collecting anchors in pre-order. -/
def anchorsForest : HtmlForest → List HtmlNode
  | .nil => []
  | .cons n rest => anchorsNode n ++ anchorsForest rest

end

/-- The visitor of `uniqueLinksInPage` scans an element's attributes and
handles only the first one whose key is `href`. -/
def firstHref (attrs : List HAttr) : Option Str :=
  (attrs.find? (fun a => a.key = "href".data)).map (fun a => a.val)

/-! ## URL resolution (interface of `net/url.ResolveReference`) -/

/-- The prefix of `base` up to and including its last `/` (empty when
`base` has no slash): `base[:strings.LastIndex(base, "/")+1]`. -/
def lastSlashPrefix : Str → Str
  | [] => []
  | c :: cs =>
    if '/' ∈ cs then c :: lastSlashPrefix cs
    else if c = '/' then [c] else []

/-- `strings.Split(s, "/")`. -/
def splitOnSlash : Str → List Str
  | [] => [[]]
  | c :: cs =>
    if c = '/' then [] :: splitOnSlash cs
    else
      match splitOnSlash cs with
      | g :: gs => (c :: g) :: gs
      | [] => [[c]]

/-- `strings.Join(groups, "/")`. -/
def joinSlash : List Str → Str
  | [] => []
  | [g] => g
  | g :: gs => g ++ '/' :: joinSlash gs

def trimOneSlash (s : Str) : Str :=
  match s with
  | '/' :: r => r
  | _ => s

/-- `resolvePath` of `net/url`: merge `ref` into `base` and remove `.` and
`..` segments, producing a rooted path. -/
def resolvePath (base ref : Str) : Str :=
  let full :=
    if ref = [] then base
    else if ref.take 1 = ['/'] then ref
    else lastSlashPrefix base ++ ref
  if full = [] then []
  else
    let src := splitOnSlash full
    let dst := src.foldl
      (fun dst elem =>
        if elem = ".".data then dst
        else if elem = "..".data then dst.dropLast
        else dst ++ [elem]) []
    let dst :=
      if src.getLast? = some ".".data ∨ src.getLast? = some "..".data
        then dst ++ [[]] else dst
    '/' :: trimOneSlash (joinSlash dst)

/-- `URL.ResolveReference` restricted to scheme/host/path: an absolute
reference or one with an authority wins wholesale; otherwise the base
supplies scheme and host and the paths are merged. -/
def resolveReference (base ref : GoURL) : GoURL :=
  let sch := if ref.scheme = [] then base.scheme else ref.scheme
  if ref.scheme ≠ [] ∨ ref.host ≠ [] then
    ⟨sch, ref.host, resolvePath ref.path []⟩
  else if ref.path = [] then
    ⟨sch, base.host, base.path⟩
  else
    ⟨sch, base.host, resolvePath base.path ref.path⟩

/-- `parseToAbsURL` (src/unnamed/part_001): parse the href, default an
empty path to `/`, and resolve against `base`.  `none` is the
malformed-href case. -/
def parseToAbsURL (href : Str) (base : GoURL) : Option GoURL :=
  match goParseURL href with
  | none => none
  | some parsed =>
    some (resolveReference base
      (if parsed.path = [] then { parsed with path := ['/'] } else parsed))

/-! ## Link extraction (src/unnamed/part_001 `uniqueLinksInPage`) -/

/-- The body of `uniqueLinksInPage`'s walk: for each anchor in pre-order,
take its first `href` attribute, resolve it against the page URL
(skipping it when unparseable) and append it unless its scheme-less key
was already seen on this page. -/
def extractLinks (pageURL : GoURL) : List HtmlNode → SchemelessURLSet → List GoURL
  | [], _ => []
  | a :: rest, seen =>
    match firstHref a.attrs with
    | none => extractLinks pageURL rest seen
    | some hv =>
      match parseToAbsURL hv pageURL with
      | none => extractLinks pageURL rest seen
      | some href =>
        if (SchemelessURLSet.EnsureContains seen href).1 then
          extractLinks pageURL rest (SchemelessURLSet.EnsureContains seen href).2
        else
          href :: extractLinks pageURL rest (SchemelessURLSet.EnsureContains seen href).2

/-- `uniqueLinksInPage` (src/unnamed/part_001): `html.Parse` the fetched
page (its failure is the page's error), then walk the document with a
fresh page-scoped seen-set.  The parse outcome is the input. -/
def uniqueLinksInPage (page : Except Str HtmlNode) (pageURL : GoURL) :
    Except Str (List GoURL) :=
  match page with
  | .error e => .error ("error parsing page: ".data ++ e)
  | .ok doc => .ok (extractLinks pageURL (anchorsNode doc) [])

/-! ## Trees (src/url_tree.go `URLTree`, src/link_tree.go `LinkTree`) -/

/-- `URLTree` (src/unnamed/part_003 and src/url_tree.go): a possibly-nil
Go map from URLs to subtrees.  Map entries are modelled as an association
list (within one node the crawler's keys are pairwise distinct); `nil`
is Go's nil map, distinct from an empty one but of length 0. -/
inductive URLTree where
  | nil
  | node (entries : List (GoURL × URLTree))

/-- `len(t)` for a possibly-nil Go map. -/
def treeLen : URLTree → Nat
  | .nil => 0
  | .node es => es.length

/-- `tree[k] = v` on an association-list map: update in place when the
key is present, append otherwise. -/
def mapSet {κ α : Type} [DecidableEq κ] (t : List (κ × α)) (k : κ) (v : α) :
    List (κ × α) :=
  if t.any (fun p => p.1 = k) then
    t.map (fun p => if p.1 = k then (k, v) else p)
  else t ++ [(k, v)]

/-- Go string comparison (`<`), byte-wise lexicographic. -/
def strLt : Str → Str → Bool
  | [], [] => false
  | [], _ :: _ => true
  | _ :: _, [] => false
  | a :: as, b :: bs => if a < b then true else if b < a then false else strLt as bs

/-- Go string comparison (`<=`), byte-wise lexicographic. -/
def strLe : Str → Str → Bool
  | [], _ => true
  | _ :: _, [] => false
  | a :: as, b :: bs => if a < b then true else if b < a then false else strLe as bs

/-- The rendering order `IgnoringScheme.Less` (src/url_tree.go) as a
non-strict relation: lexicographic comparison of scheme-less keys. -/
def keyLe {α : Type} (p q : GoURL × α) : Prop :=
  strLe (withoutScheme p.1) (withoutScheme q.1) = true

/-- Inserts an entry into a list sorted by scheme-less key, after all
entries with a key not greater than its own. -/
def insertByKey {α : Type} (p : GoURL × α) : List (GoURL × α) → List (GoURL × α)
  | [] => [p]
  | q :: qs =>
    if strLt (withoutScheme p.1) (withoutScheme q.1) then p :: q :: qs
    else q :: insertByKey p qs

/-- `sort.Sort(IgnoringScheme(links))` (src/url_tree.go): sorts by
lexicographic order of the scheme-less equivalents.  `sort.Sort` is
unspecified on ties; this model picks the stable order (the crawler never
produces two entries of one node with equal keys). -/
def sortByKey {α : Type} : List (GoURL × α) → List (GoURL × α) :=
  List.foldr insertByKey []

def joinBlocks (bs : List (GoURL × Str)) : Str :=
  (bs.map (fun b => b.2)).flatten

mutual

/-- `URLTree.string` (src/url_tree.go): sort this node's links by their
scheme-less equivalents and emit each one's block.  Rendering the
per-entry blocks first and sorting them by key afterwards prints exactly
what sorting the keys first would print, since blocks are per-entry. -/
def URLTree.string : URLTree → Nat → Str
  | .nil, _ => []
  | .node es, indent => joinBlocks (sortByKey (renderBlocks es indent))

/-- One rendered entry per element: the link at two spaces per indent
level on its own line, followed by its rendered subtree when
`len(t[link]) != 0`. -/
def renderBlocks : List (GoURL × URLTree) → Nat → List (GoURL × Str)
  | [], _ => []
  | (k, v) :: rest, indent =>
    (k, List.replicate (2 * indent) ' ' ++ urlString k ++ ['\n'] ++
        (if treeLen v ≠ 0 then URLTree.string v (indent + 1) else [])) ::
      renderBlocks rest indent

end

/-- `URLTree.String()`: rendering starts at indent 0. -/
def URLTree.render (t : URLTree) : Str :=
  URLTree.string t 0

mutual

/-- All entries of a `URLTree`, at every level. -/
def entriesRec : URLTree → List (GoURL × URLTree)
  | .nil => []
  | .node es => entriesRecList es

def entriesRecList : List (GoURL × URLTree) → List (GoURL × URLTree)
  | [] => []
  | (k, v) :: rest => (k, v) :: (entriesRec v ++ entriesRecList rest)

end

/-! ## Aggregation of the concurrent variant (src/crawler.go) -/

/-- `LinkTree` (src/link_tree.go): a Go map from link strings to
subtrees, as an association list; `nil` is the nil map. -/
inductive LinkTree where
  | nil
  | node (entries : List (Str × LinkTree))

/-- A `result` (src/funnel.go): one child sub-crawl's outcome. -/
structure CResult where
  link : Str
  tree : LinkTree
  err : Option Str

/-- The loop of `collectResults` over the funneled channel.  `funnel`
merges the child channels in an arbitrary interleaving; the input list is
the received order, so quantifying over it covers every interleaving. -/
def collectResultsLoop : List CResult → List (Str × LinkTree) →
    Option LinkTree × Option Str
  | [], acc => (some (.node acc), none)
  | r :: rest, acc =>
    match r.err with
    | some e => (none, some e)
    | none => collectResultsLoop rest (mapSet acc r.link r.tree)

/-- `collectResults` (src/crawler.go): consume the funneled results; on
the first error abort with it and no tree, otherwise insert each
`url -> subtree` into this node's tree. -/
def collectResults (rs : List CResult) : Option LinkTree × Option Str :=
  collectResultsLoop rs []

/-! ## The crawler (src/unnamed/part_001) -/

/-- `Crawler`: configuration shared by a run.  The `http.Client` is part
of the `Web` oracle; the rate limiter is not modelled (its `Wait` on
`context.Background()` only delays, it never returns an error for the
rates the CLI configures). -/
structure Crawler where
  root : GoURL
  maxDepth : Int

/-- The external world: `fetch u` is the HTTP GET of `c.fetch` (outer
error) followed by `html.Parse` of the body (inner error). -/
structure Web where
  fetch : GoURL → Except Str (Except Str HtmlNode)

/-- Which branch of the `for _, href := range hrefs` loop of `crawl`
(src/unnamed/part_001 lines 89–115) handled a listed link: skipped
because `EnsureContains` reported the key already visited, skipped by the
depth/host guard (after the key was inserted), or handed to the
recursive sub-crawl. -/
inductive Enc where
  | skippedVisited
  | skippedBounds
  | crawled
deriving DecidableEq, Repr

/-- The observable crawl state: the shared visited set, the list of
issued page fetches `(url, depth)` in order, and the log of link
encounters `(href, depth + 1, branch taken)` in order.  The trace and
the event log are ghost state: they record every request the crawler
sends and every loop-branch decision, and influence nothing. -/
structure CrawlSt where
  visited : SchemelessURLSet
  trace : List (GoURL × Int)
  events : List (GoURL × Int × Enc)

/-- A crawl outcome: the two Go return values `(URLTree, error)` (a nil
tree is `none`), and the state after the call. -/
abbrev CrawlRes := (Option URLTree × Option Str) × CrawlSt

/-- `errors.Wrapf`: the wrapped message `ctx ++ ": " ++ e`. -/
def wrapErr (ctx e : Str) : Str :=
  ctx ++ ':' :: ' ' :: e

/-- The links the crawler would extract from `u`'s page, when fetching
and parsing succeed. -/
def pageLinks (web : Web) (u : GoURL) : List GoURL :=
  match web.fetch u with
  | .ok (.ok doc) => extractLinks u (anchorsNode doc) []
  | _ => []

/-- The `for _, href := range hrefs` loop of `crawl`
(src/unnamed/part_001 lines 89–115): list the link, mark it visited,
skip it when already visited, too deep or off-host, otherwise run the
sub-crawl `step` (the recursive `crawl` at `depth+1`) and store its
subtree; a sub-crawl error aborts the loop with that error and no tree. -/
def crawlChildren (step : GoURL → Int → CrawlSt → CrawlRes) (c : Crawler)
    (depth : Int) :
    List GoURL → List (GoURL × URLTree) → CrawlSt → CrawlRes
  | [], entries, s => ((some (.node entries), none), s)
  | href :: rest, entries, s =>
    let entries1 := mapSet entries href .nil
    let r := SchemelessURLSet.EnsureContains s.visited href
    if r.1 then
      crawlChildren step c depth rest entries1
        { s with visited := r.2,
                 events := s.events ++ [(href, depth + 1, Enc.skippedVisited)] }
    else if depth + 1 ≥ c.maxDepth ∨ hostname href ≠ hostname c.root then
      crawlChildren step c depth rest entries1
        { s with visited := r.2,
                 events := s.events ++ [(href, depth + 1, Enc.skippedBounds)] }
    else
      match step href (depth + 1)
          { s with visited := r.2,
                   events := s.events ++ [(href, depth + 1, Enc.crawled)] } with
      | ((subTree, none), s2) =>
        crawlChildren step c depth rest (mapSet entries1 href (subTree.getD .nil)) s2
      | ((_, some e), s2) => ((none, some e), s2)

/-- `crawl` (src/unnamed/part_001): wait for the limiter, fetch and parse
the page (each failure wrapped and fatal for the branch), extract its
unique links, and process them with the loop above.  Recursion is by
fuel; the depth guard keeps any run started with more fuel than
`maxDepth` away from the fuel-exhaustion branch (`crawl_no_fuelMsg`). -/
def crawl (c : Crawler) (web : Web) : Nat → GoURL → Int → CrawlSt → CrawlRes
  | 0, _, _, s => ((none, some "fuel exhausted".data), s)
  | fuel + 1, pageURL, depth, s =>
    let s1 : CrawlSt := { s with trace := s.trace ++ [(pageURL, depth)] }
    match web.fetch pageURL with
    | .error e =>
      ((none, some (wrapErr ("error fetching ".data ++ urlString pageURL) e)), s1)
    | .ok page =>
      match uniqueLinksInPage page pageURL with
      | .error e =>
        ((none, some (wrapErr ("error finding links on ".data ++ urlString pageURL) e)), s1)
      | .ok hrefs => crawlChildren (crawl c web fuel) c depth hrefs [] s1

/-- `Crawler.Run` (src/unnamed/part_001): mark the entrypoint visited and
crawl it at depth 0, on a fresh state. -/
def Crawler.Run (c : Crawler) (web : Web) : CrawlRes :=
  let s0 : CrawlSt := ⟨[], [], []⟩
  crawl c web (c.maxDepth.toNat + 1) c.root 0
    { s0 with visited := (SchemelessURLSet.EnsureContains s0.visited c.root).2 }

/-- `u` is reachable from `root` in at most `n` link hops: hop `v → u`
follows a link the crawler's extractor finds on `v`'s page. -/
inductive Reaches (web : Web) (root : GoURL) : Nat → GoURL → Prop
  | refl (n : Nat) : Reaches web root n root
  | step (n : Nat) (v u : GoURL) (hv : Reaches web root n v)
      (hu : u ∈ pageLinks web v) : Reaches web root (n + 1) u

/-- The scheme-less keys of the fetches issued so far. -/
def traceKeys (s : CrawlSt) : List Str :=
  s.trace.map (fun p => withoutScheme p.1)

/-- The running invariant of a crawl: no identity key has been fetched
twice, and every fetched key is recorded in the visited set. -/
def TraceInv (s : CrawlSt) : Prop :=
  (traceKeys s).Nodup ∧ ∀ k ∈ traceKeys s, k ∈ s.visited

/-- The running invariant of the encounter log.  At every decomposition
of the log around one event: a bounds skip really was rejected by the
depth/host guard and its key has never been fetched; and any event other
than a visited skip (a bounds skip or an admission — the branches that
run on a fresh key and insert it) leaves its key in the visited set, so
every later encounter of the same key is a visited skip. -/
def EvInv (c : Crawler) (s : CrawlSt) : Prop :=
  ∀ pre v d o post, s.events = pre ++ (v, d, o) :: post →
    (o = Enc.skippedBounds →
      (d ≥ c.maxDepth ∨ hostname v ≠ hostname c.root) ∧
      withoutScheme v ∉ traceKeys s) ∧
    (o ≠ Enc.skippedVisited →
      withoutScheme v ∈ s.visited ∧
      ∀ e ∈ post, withoutScheme e.1 = withoutScheme v →
        e.2.2 = Enc.skippedVisited)

/-- What one `crawl` call guarantees, relating its input state `s` to its
result `res` (proved in `crawl_master`): the visited set only grows; the
trace grows by fetches that are depth-bounded, reachable within their
recorded depth, and are this page or a link found on a fetched page; the
running invariant is preserved; every entry of a returned tree has its
key in the visited set and, when expanded, was fetched; this page's
fetch is in the trace unless the call failed; and the encounter-log
invariant is preserved (under the premise that no bounds-skipped key is
this page's key — the caller admitted this page on a fresh key). -/
def MasterOut (web : Web) (c : Crawler) (u : GoURL) (depth : Int)
    (s : CrawlSt) (res : CrawlRes) : Prop :=
  (∀ k ∈ s.visited, k ∈ res.2.visited) ∧
  (∃ ts, res.2.trace = s.trace ++ ts ∧
    ∀ p ∈ ts, 0 ≤ p.2 ∧ Reaches web c.root p.2.toNat p.1 ∧
      (p.2 = depth ∨ (depth < p.2 ∧ p.2 < c.maxDepth)) ∧
      (p = (u, depth) ∨ ∃ w d2, (w, d2) ∈ res.2.trace ∧ p.1 ∈ pageLinks web w)) ∧
  TraceInv res.2 ∧
  (∀ t, res.1.1 = some t → ∀ q ∈ entriesRec t,
    withoutScheme q.1 ∈ res.2.visited ∧
    (q.2 ≠ .nil → ∃ d, (q.1, d) ∈ res.2.trace)) ∧
  (res.1.2 = none → (u, depth) ∈ res.2.trace) ∧
  (EvInv c s →
    (∀ e ∈ s.events, e.2.2 = Enc.skippedBounds →
      withoutScheme e.1 ≠ withoutScheme u) →
    EvInv c res.2)

/-- What the children loop guarantees, relating its inputs to its result
(proved in `crawlChildren_master`); as `MasterOut`, with the loop's new
fetches strictly below this page's depth bound, each being either a link
of this page crawled at `depth + 1` or a link found on a fetched page,
tree entries either inherited from the accumulator or accounted for, and
the encounter-log invariant preserved. -/
def LoopOut (web : Web) (c : Crawler) (depth : Int) (hrefs : List GoURL)
    (entries0 : List (GoURL × URLTree)) (s : CrawlSt) (res : CrawlRes) : Prop :=
  (∀ k ∈ s.visited, k ∈ res.2.visited) ∧
  (∃ ts, res.2.trace = s.trace ++ ts ∧
    ∀ p ∈ ts, 0 ≤ p.2 ∧ Reaches web c.root p.2.toNat p.1 ∧
      (depth < p.2 ∧ p.2 < c.maxDepth) ∧
      ((p.1 ∈ hrefs ∧ p.2 = depth + 1) ∨
        ∃ w d2, (w, d2) ∈ res.2.trace ∧ p.1 ∈ pageLinks web w)) ∧
  TraceInv res.2 ∧
  (∀ t, res.1.1 = some t → ∀ q ∈ entriesRec t,
    q ∈ entriesRecList entries0 ∨
      (withoutScheme q.1 ∈ res.2.visited ∧
        (q.2 ≠ .nil → ∃ d, (q.1, d) ∈ res.2.trace))) ∧
  (EvInv c s → EvInv c res.2)

/-! ## Spec-side descriptions (for refinement claims only) -/

/-- Modelled from the spec wording of §4.4: the first `href` of each
anchor in pre-order, each resolved against the page URL, unparseable
hrefs dropped. -/
def specResolvedLinks (pageURL : GoURL) (anchors : List HtmlNode) : List GoURL :=
  (anchors.filterMap (fun a => firstHref a.attrs)).filterMap
    (fun hv => parseToAbsURL hv pageURL)

/-- Keeps the first URL of each scheme-less identity key, given the keys
already seen. -/
def dedupByKeyAux : List GoURL → List Str → List GoURL
  | [], _ => []
  | u :: us, seen =>
    if withoutScheme u ∈ seen then dedupByKeyAux us seen
    else u :: dedupByKeyAux us (withoutScheme u :: seen)

/-- Modelled from the spec wording of §4.4: page-local dedup by identity
key, keeping first occurrences. -/
def dedupByKey (us : List GoURL) : List GoURL :=
  dedupByKeyAux us []

/-- `leadsWith s pat`: `s` starts with `pat`. -/
def leadsWith : Str → Str → Bool
  | _, [] => true
  | [], _ :: _ => false
  | c :: cs, p :: ps => c = p && leadsWith cs ps

/-- `occursIn pat s`: `pat` occurs as a contiguous substring of `s`. -/
def occursIn (pat : Str) : Str → Bool
  | [] => leadsWith [] pat
  | c :: cs => leadsWith (c :: cs) pat || occursIn pat cs

/-! ## Concrete instances used by witnesses and counterexamples -/

/-- An anchor element with a single `href` attribute. -/
def aEl (href : Str) : HtmlNode :=
  .mk .elementNode "a".data [⟨"href".data, href⟩] .nil

/-- A document whose body is a list of anchors. -/
def pageDoc (hrefs : List Str) : HtmlNode :=
  .mk .documentNode [] [] (forestOf (hrefs.map aEl))

/-- An absolute URL on host `h`. -/
def hURL (sch p : String) : GoURL :=
  ⟨sch.data, "h".data, p.data⟩

/-- A four-page site: `/entry` links to `/a` and `/b`; `/a` links to
`http://h/x`; `/b` links to `https://h/x`; `/x` has no links.  The
`http` form of `/x` is discovered (and fetched) before the `https` form
is discovered on `/b`'s page. -/
def webTwoSchemes : Web :=
  ⟨fun u =>
    if u = hURL "http" "/entry" then .ok (.ok (pageDoc ["/a".data, "/b".data]))
    else if u = hURL "http" "/a" then .ok (.ok (pageDoc ["http://h/x".data]))
    else if u = hURL "http" "/b" then .ok (.ok (pageDoc ["https://h/x".data]))
    else if u = hURL "http" "/x" then .ok (.ok (pageDoc []))
    else .error "not found".data⟩

/-- The crawler configured for `webTwoSchemes` at depth 3. -/
def crawlerTwoSchemes : Crawler :=
  ⟨hURL "http" "/entry", 3⟩

/-- The run on `webTwoSchemes`. -/
def runTwoSchemes : CrawlRes :=
  Crawler.Run crawlerTwoSchemes webTwoSchemes

/-- The root tree of `runTwoSchemes`. -/
def treeTwoSchemes : URLTree :=
  match runTwoSchemes.1.1 with
  | some t => t
  | none => .nil

/-- A one-page site whose page has no links. -/
def webSingle : Web :=
  ⟨fun u =>
    if u = hURL "http" "/entry" then .ok (.ok (pageDoc []))
    else .error "not found".data⟩

/-- A web whose every fetch fails. -/
def webDown : Web :=
  ⟨fun _ => .error "connection refused".data⟩

/-- A three-page site: `/entry` links to `/deep` and then `/target`;
`/deep` links to `/target`.  At `maxDepth = 2` the crawl first reaches
`/target` on `/deep`'s page, where the depth guard rejects it (it would
be fetched at depth 2); the later encounter on `/entry`'s own page is
within the depth budget but must still be skipped. -/
def webLate : Web :=
  ⟨fun u =>
    if u = hURL "http" "/entry" then
      .ok (.ok (pageDoc ["/deep".data, "/target".data]))
    else if u = hURL "http" "/deep" then .ok (.ok (pageDoc ["/target".data]))
    else if u = hURL "http" "/target" then .ok (.ok (pageDoc []))
    else .error "not found".data⟩

/-- The crawler configured for `webLate` at depth 2. -/
def crawlerLate : Crawler :=
  ⟨hURL "http" "/entry", 2⟩

/-! # Lemmas and theorems -/

/-! ## URL identity (claim C6) -/

lemma splitSchemeAux_append (sch rest : Str) (h : ∀ c ∈ sch, c.isAlpha = true) :
    ∀ acc, splitSchemeAux acc (sch ++ ':' :: rest) =
      if acc.reverse ++ sch = [] then none else some (acc.reverse ++ sch, rest) := by
  induction sch with
  | nil =>
    intro acc
    simp [splitSchemeAux]
  | cons c cs ih =>
    intro acc
    have hc : c.isAlpha = true := h c (List.mem_cons_self c cs)
    have hcne : c ≠ ':' := by
      intro he
      rw [he] at hc
      simp at hc
    have h1 : splitSchemeAux acc ((c :: cs) ++ ':' :: rest) =
        splitSchemeAux (c :: acc) (cs ++ ':' :: rest) := by
      simp [splitSchemeAux, hcne, hc]
    rw [h1, ih (fun x hx => h x (List.mem_cons_of_mem c hx)) (c :: acc)]
    simp

lemma splitScheme_append (sch rest : Str) (hne : sch ≠ [])
    (h : ∀ c ∈ sch, c.isAlpha = true) :
    splitScheme (sch ++ ':' :: rest) = some (sch, rest) := by
  unfold splitScheme
  rw [splitSchemeAux_append sch rest h []]
  simp [hne]

lemma splitScheme_slash (s : Str) : splitScheme ('/' :: s) = none := by
  unfold splitScheme splitSchemeAux
  simp

lemma splitHost_append (host path : Str) (hh : '/' ∉ host)
    (hp : path = [] ∨ path.take 1 = ['/']) :
    splitHost (host ++ path) = (host, path) := by
  induction host with
  | nil =>
    rcases hp with hp | hp
    · simp [hp, splitHost]
    · match path, hp with
      | c :: cs, hp =>
        simp only [List.take, List.cons.injEq] at hp
        unfold splitHost
        simp [hp.1]
  | cons c cs ih =>
    have hc : c ≠ '/' := fun he => hh (he ▸ List.mem_cons_self c cs)
    have hcs : '/' ∉ cs := fun hm => hh (List.mem_cons_of_mem c hm)
    unfold splitHost
    simp [hc, Ne.symm, ih hcs]

lemma goParseURL_urlString (u : GoURL) (h : wfURL u) :
    goParseURL (urlString u) = some u := by
  obtain ⟨sch, host, path⟩ := u
  obtain ⟨hvp, hsch, hhost, hnohost⟩ := h
  simp only at hsch hhost hnohost
  unfold goParseURL
  rw [if_pos hvp]
  by_cases hs : sch = [] <;> by_cases hh : host = []
  · -- no scheme, no host: the string is just the path
    subst hs; subst hh
    have hu : urlString ⟨[], [], path⟩ = path := by simp [urlString]
    rw [hu]
    obtain ⟨hps, hp2⟩ := hnohost rfl
    rw [hps, if_neg hp2]
  · -- no scheme, a host: the string starts with //
    subst hs
    obtain ⟨hnoslash, hpshape⟩ := hhost hh
    have hu : urlString ⟨[], host, path⟩ = '/' :: '/' :: (host ++ path) := by
      simp [urlString, hh]
    rw [hu, splitScheme_slash]
    simp only [List.take, List.drop, if_pos rfl]
    rw [splitHost_append host path hnoslash hpshape]
    simp
  · -- a scheme, no host
    subst hh
    obtain ⟨hps, hp2⟩ := hnohost rfl
    have hu : urlString ⟨sch, [], path⟩ = sch ++ ':' :: path := by
      simp [urlString, hs]
    rw [hu, splitScheme_append sch path hs (hsch hs)]
    simp only
    rw [if_neg hp2]
  · -- a scheme and a host
    obtain ⟨hnoslash, hpshape⟩ := hhost hh
    have hu : urlString ⟨sch, host, path⟩ =
        sch ++ ':' :: ('/' :: '/' :: (host ++ path)) := by
      simp [urlString, hs, hh]
    rw [hu, splitScheme_append sch _ hs (hsch hs)]
    simp only [List.take, List.drop, if_pos rfl]
    rw [splitHost_append host path hnoslash hpshape]
    simp

lemma withoutScheme_wf (u : GoURL) (h : wfURL u) :
    withoutScheme u = urlString { u with scheme := [] } := by
  unfold withoutScheme
  rw [goParseURL_urlString u h]

lemma specEraseScheme_urlString (u : GoURL) (h : wfURL u) :
    specEraseScheme (urlString u) = urlString { u with scheme := [] } := by
  obtain ⟨sch, host, path⟩ := u
  obtain ⟨hvp, hsch, hhost, hnohost⟩ := h
  simp only at hsch hhost hnohost
  unfold specEraseScheme
  by_cases hs : sch = [] <;> by_cases hh : host = []
  · subst hs; subst hh
    have hu : urlString ⟨[], [], path⟩ = path := by simp [urlString]
    rw [hu, (hnohost rfl).1]
  · subst hs
    have hu : urlString ⟨[], host, path⟩ = '/' :: '/' :: (host ++ path) := by
      simp [urlString, hh]
    rw [hu, splitScheme_slash, ← hu]
  · subst hh
    have hu : urlString ⟨sch, [], path⟩ = sch ++ ':' :: path := by
      simp [urlString, hs]
    have hu2 : urlString ⟨[], [], path⟩ = path := by simp [urlString]
    rw [hu, splitScheme_append sch path hs (hsch hs), hu2]
  · have hu : urlString ⟨sch, host, path⟩ =
        sch ++ ':' :: ('/' :: '/' :: (host ++ path)) := by
      simp [urlString, hs, hh]
    have hu2 : urlString ⟨[], host, path⟩ = '/' :: '/' :: (host ++ path) := by
      simp [urlString, hh]
    rw [hu, splitScheme_append sch _ hs (hsch hs), hu2]

/-- C6.  Identity keys erase exactly the scheme: for well-formed URLs the
program's key function `withoutScheme` identifies two URLs exactly when
their string forms agree after erasing the scheme component, the keys of
`http://h/p` and `https://h/p` coincide, and a trailing slash keeps two
URLs distinct. -/
theorem c6_identity_scheme_insensitive :
    (∀ u v : GoURL, wfURL u → wfURL v →
      (withoutScheme u = withoutScheme v ↔
        specEraseScheme (urlString u) = specEraseScheme (urlString v))) ∧
    withoutScheme ⟨"http".data, "h".data, "/p".data⟩ =
      withoutScheme ⟨"https".data, "h".data, "/p".data⟩ ∧
    withoutScheme ⟨[], [], "h/p".data⟩ ≠ withoutScheme ⟨[], [], "h/p/".data⟩ := by
  refine ⟨fun u v hu hv => ?_, by decide, by decide⟩
  rw [withoutScheme_wf u hu, withoutScheme_wf v hv,
    specEraseScheme_urlString u hu, specEraseScheme_urlString v hv]

/-- C6's theorem applied at the concrete URLs `http://h/p` and
`https://h/p`, whose well-formedness is checked by evaluation. -/
theorem c6_witness :
    wfURL ⟨"http".data, "h".data, "/p".data⟩ ∧
    wfURL ⟨"https".data, "h".data, "/p".data⟩ ∧
    (withoutScheme ⟨"http".data, "h".data, "/p".data⟩ =
        withoutScheme ⟨"https".data, "h".data, "/p".data⟩ ↔
      specEraseScheme (urlString ⟨"http".data, "h".data, "/p".data⟩) =
        specEraseScheme (urlString ⟨"https".data, "h".data, "/p".data⟩)) :=
  ⟨by decide, by decide,
    c6_identity_scheme_insensitive.1 _ _ (by decide) (by decide)⟩

/-! ## Admission exactly-once (claim C2) -/

lemma falseObservations_of_mem (k : Str) :
    ∀ (us : List GoURL) (s : SchemelessURLSet), k ∈ s →
      falseObservations s k us = 0 := by
  intro us
  induction us with
  | nil => intro s _; rfl
  | cons u rest ih =>
    intro s hk
    unfold falseObservations SchemelessURLSet.EnsureContains
    by_cases hm : withoutScheme u ∈ s
    · simp only [hm, if_pos]
      rw [ih s hk]
      simp
    · simp only [hm, if_neg, if_false]
      rw [ih (withoutScheme u :: s) (List.mem_cons_of_mem _ hk)]
      simp
      intro hek
      rw [hek] at hm
      exact absurd hk hm

lemma falseObservations_once (k : Str) :
    ∀ (us : List GoURL) (s : SchemelessURLSet), k ∉ s →
      (∃ v ∈ us, withoutScheme v = k) →
      falseObservations s k us = 1 := by
  intro us
  induction us with
  | nil =>
    intro s _ hex
    simp at hex
  | cons u rest ih =>
    intro s hk hex
    by_cases hu : withoutScheme u = k
    · have hnm : withoutScheme u ∉ s := hu ▸ hk
      unfold falseObservations SchemelessURLSet.EnsureContains
      simp only [hnm, if_neg, if_false]
      rw [falseObservations_of_mem k rest (withoutScheme u :: s)
        (hu ▸ List.mem_cons_self _ _)]
      simp [hu]
    · have hex2 : ∃ v ∈ rest, withoutScheme v = k := by
        rcases hex with ⟨v, hv, hvk⟩
        rcases List.mem_cons.mp hv with rfl | hv2
        · exact absurd hvk hu
        · exact ⟨v, hv2, hvk⟩
      unfold falseObservations SchemelessURLSet.EnsureContains
      by_cases hm : withoutScheme u ∈ s
      · simp only [hm, if_pos]
        rw [ih s hk hex2]
        simp [hu]
      · simp only [hm, if_neg, if_false]
        have hk2 : k ∉ withoutScheme u :: s := by
          intro hin
          rcases List.mem_cons.mp hin with he | hin2
          · exact hu he.symm
          · exact hk hin2
        rw [ih (withoutScheme u :: s) hk2 hex2]
        simp [hu]

/-- C2.  Across any number of `EnsureContains` calls on a shared set (the
list is the linearization order of the concurrent callers, so every
interleaving is covered): for a key not initially present but called at
least once, exactly one call observes "did not exist" (returns `false`);
for a key already present, no call ever observes "did not exist" — every
other call on the same key returns `true`, so no key is admitted for
expansion twice. -/
theorem c2_admission_exactly_once :
    (∀ (s : SchemelessURLSet) (calls : List GoURL) (u : GoURL),
      withoutScheme u ∉ s → (∃ v ∈ calls, withoutScheme v = withoutScheme u) →
      falseObservations s (withoutScheme u) calls = 1) ∧
    (∀ (s : SchemelessURLSet) (calls : List GoURL) (k : Str), k ∈ s →
      falseObservations s k calls = 0) :=
  ⟨fun s calls u hu hex => falseObservations_once (withoutScheme u) calls s hu hex,
    fun s calls k hk => falseObservations_of_mem k calls s hk⟩

/-- C2's theorem applied to three concurrent callers of the same key (two
scheme variants of one URL) on an initially empty set. -/
theorem c2_witness :
    falseObservations [] (withoutScheme (hURL "http" "/p"))
      [hURL "http" "/p", hURL "https" "/p", hURL "http" "/p"] = 1 :=
  c2_admission_exactly_once.1 [] _ (hURL "http" "/p") (by decide)
    ⟨hURL "http" "/p", by decide, rfl⟩

/-! ## Link extraction (claims C5, C8, C9) -/

lemma extractLinks_eq_dedup (pageURL : GoURL) :
    ∀ (as : List HtmlNode) (seen : SchemelessURLSet),
      extractLinks pageURL as seen =
        dedupByKeyAux (specResolvedLinks pageURL as) seen := by
  intro as
  induction as with
  | nil => intro seen; rfl
  | cons a rest ih =>
    intro seen
    unfold extractLinks specResolvedLinks
    unfold specResolvedLinks at ih
    rw [List.filterMap_cons]
    cases hf : firstHref a.attrs with
    | none => simp only; rw [ih seen]
    | some hv =>
      simp only
      cases hp : parseToAbsURL hv pageURL with
      | none => rw [List.filterMap_cons, hp, ih seen]
      | some href =>
        rw [List.filterMap_cons, hp]
        simp only [SchemelessURLSet.EnsureContains]
        by_cases hm : withoutScheme href ∈ seen
        · simp only [hm, if_pos, dedupByKeyAux]
          rw [ih seen]
        · simp only [hm, if_neg, if_false, dedupByKeyAux]
          rw [ih (withoutScheme href :: seen)]
          simp [hm]

lemma dedupByKeyAux_nodup :
    ∀ (us : List GoURL) (seen : SchemelessURLSet),
      ((dedupByKeyAux us seen).map withoutScheme).Nodup ∧
      ∀ x ∈ dedupByKeyAux us seen, withoutScheme x ∉ seen := by
  intro us
  induction us with
  | nil => intro seen; simp [dedupByKeyAux]
  | cons u rest ih =>
    intro seen
    unfold dedupByKeyAux
    by_cases hm : withoutScheme u ∈ seen
    · simp only [hm, if_pos]
      exact ih seen
    · simp only [hm, if_neg, if_false]
      obtain ⟨ihn, ihs⟩ := ih (withoutScheme u :: seen)
      refine ⟨?_, ?_⟩
      · simp only [List.map_cons, List.nodup_cons]
        refine ⟨?_, ihn⟩
        intro hin
        rcases List.mem_map.mp hin with ⟨x, hx, hxk⟩
        exact (ihs x hx) (hxk ▸ List.mem_cons_self _ _)
      · intro x hx
        rcases List.mem_cons.mp hx with rfl | hx2
        · exact hm
        · exact fun hin => (ihs x hx2) (List.mem_cons_of_mem _ hin)

lemma extractLinks_nodup (pageURL : GoURL) (as : List HtmlNode) :
    ((extractLinks pageURL as []).map withoutScheme).Nodup := by
  rw [extractLinks_eq_dedup]
  exact (dedupByKeyAux_nodup _ []).1

lemma dedupByKeyAux_first_in_second_out :
    ∀ (pre : List GoURL) (seen : SchemelessURLSet) (u v : GoURL)
      (post : List GoURL),
      withoutScheme u ∉ seen → (∀ x ∈ pre, withoutScheme x ≠ withoutScheme u) →
      v ∈ post → withoutScheme v = withoutScheme u → v ≠ u →
      u ∈ dedupByKeyAux (pre ++ u :: post) seen ∧
      v ∉ dedupByKeyAux (pre ++ u :: post) seen := by
  intro pre
  induction pre with
  | nil =>
    intro seen u v post hu _ hv hvk hvu
    simp only [List.nil_append]
    unfold dedupByKeyAux
    simp only [hu, if_neg, if_false]
    refine ⟨List.mem_cons_self _ _, ?_⟩
    intro hin
    rcases List.mem_cons.mp hin with rfl | hin2
    · exact hvu rfl
    · exact (dedupByKeyAux_nodup post (withoutScheme u :: seen)).2 v hin2
        (hvk ▸ List.mem_cons_self _ _)
  | cons p pre2 ih =>
    intro seen u v post hu hpre hv hvk hvu
    have hpk : withoutScheme p ≠ withoutScheme u := hpre p (List.mem_cons_self _ _)
    have hpre2 : ∀ x ∈ pre2, withoutScheme x ≠ withoutScheme u :=
      fun x hx => hpre x (List.mem_cons_of_mem _ hx)
    simp only [List.cons_append]
    unfold dedupByKeyAux
    by_cases hm : withoutScheme p ∈ seen
    · simp only [hm, if_pos]
      exact ih seen u v post hu hpre2 hv hvk hvu
    · simp only [hm, if_neg, if_false]
      have hu2 : withoutScheme u ∉ withoutScheme p :: seen := by
        intro hin
        rcases List.mem_cons.mp hin with he | hin2
        · exact hpk he.symm
        · exact hu hin2
      obtain ⟨hin, hout⟩ := ih (withoutScheme p :: seen) u v post hu2 hpre2 hv hvk hvu
      refine ⟨List.mem_cons_of_mem _ hin, ?_⟩
      intro hvin
      rcases List.mem_cons.mp hvin with rfl | h2
      · exact hpk hvk
      · exact hout h2

lemma length_filter_eq_one_of_nodup_map {α β : Type} [DecidableEq β] (f : α → β) :
    ∀ (l : List α), (l.map f).Nodup → ∀ x ∈ l,
      (l.filter (fun y => f y = f x)).length = 1 := by
  intro l
  induction l with
  | nil => intro _ x hx; simp at hx
  | cons a t ih =>
    intro hnd x hx
    simp only [List.map_cons, List.nodup_cons] at hnd
    obtain ⟨ha, hnt⟩ := hnd
    rcases List.mem_cons.mp hx with rfl | hxt
    · have hnone : t.filter (fun y => f y = f x) = [] := by
        rw [List.filter_eq_nil_iff]
        intro y hy
        simp only [decide_eq_true_eq]
        intro he
        exact ha (he ▸ List.mem_map_of_mem f hy)
      simp [List.filter_cons, hnone]
    · have hne : ¬(f a = f x) := by
        intro he
        exact ha (he ▸ List.mem_map_of_mem f hxt)
      simp only [List.filter_cons, decide_eq_true_eq, hne, if_false, if_neg]
      exact ih hnt x hxt

/-- C9.  A malformed (unparseable) href on a page is silently skipped:
the extractor's output on a page containing it equals the output on the
same page without that anchor — it is not appended, the surrounding valid
links are kept — and link extraction on a parsed page never returns an
error (only a failed `html.Parse` of the body can). -/
theorem c9_malformed_href_skipped :
    (∀ (pageURL : GoURL) (seen : SchemelessURLSet) (as bs : List HtmlNode)
      (bad : HtmlNode) (hv : Str),
      firstHref bad.attrs = some hv → goParseURL hv = none →
      extractLinks pageURL (as ++ bad :: bs) seen =
        extractLinks pageURL (as ++ bs) seen) ∧
    (∀ (doc : HtmlNode) (pageURL : GoURL), ∃ links,
      uniqueLinksInPage (.ok doc) pageURL = .ok links) := by
  constructor
  · intro pageURL seen as bs bad hv hf hp
    induction as generalizing seen with
    | nil =>
      simp only [List.nil_append, extractLinks, hf, parseToAbsURL, hp]
    | cons a rest ih =>
      simp only [List.cons_append]
      unfold extractLinks
      cases hfa : firstHref a.attrs with
      | none => exact ih seen
      | some hva =>
        simp only
        cases hpa : parseToAbsURL hva pageURL with
        | none => exact ih seen
        | some href =>
          simp only
          by_cases hm : (SchemelessURLSet.EnsureContains seen href).1
          · simp only [hm, if_pos]
            exact ih _
          · simp only [hm, if_neg, if_false]
            rw [ih _]
  · intro doc pageURL
    exact ⟨_, rfl⟩

/-- C9's theorem applied to a page whose anchors are `/good1`, the
malformed `%zz` (invalid percent-escape, rejected by `url.Parse`) and
`/good2`. -/
theorem c9_witness :
    extractLinks (hURL "http" "/entry")
        [aEl "/good1".data, aEl "%zz".data, aEl "/good2".data] [] =
      extractLinks (hURL "http" "/entry") [aEl "/good1".data, aEl "/good2".data] [] :=
  c9_malformed_href_skipped.1 (hURL "http" "/entry") [] [aEl "/good1".data]
    [aEl "/good2".data] (aEl "%zz".data) "%zz".data (by decide) (by decide)

/-! ## Sorted, deterministic rendering (claim C7) -/

lemma strLe_of_strLt : ∀ a b : Str, strLt a b = true → strLe a b = true := by
  intro a
  induction a with
  | nil => intro b _; cases b <;> rfl
  | cons x xs ih =>
    intro b h
    cases b with
    | nil => simp [strLt] at h
    | cons y ys =>
      simp only [strLt] at h
      simp only [strLe]
      by_cases hxy : x < y
      · simp [hxy]
      · by_cases hyx : y < x
        · simp [hxy, hyx] at h
        · simp only [hxy, hyx, if_false, if_neg] at h ⊢
          exact ih ys h

lemma strLe_of_not_strLt : ∀ a b : Str, strLt a b = false → strLe b a = true := by
  intro a
  induction a with
  | nil =>
    intro b h
    cases b with
    | nil => rfl
    | cons y ys => simp [strLt] at h
  | cons x xs ih =>
    intro b h
    cases b with
    | nil => rfl
    | cons y ys =>
      simp only [strLt] at h
      simp only [strLe]
      by_cases hxy : x < y
      · simp [hxy] at h
      · by_cases hyx : y < x
        · simp [hyx]
        · simp only [hxy, hyx, if_false, if_neg] at h ⊢
          exact ih ys h

lemma strLe_trans : ∀ a b c : Str, strLe a b = true → strLe b c = true →
    strLe a c = true := by
  intro a
  induction a with
  | nil => intro b c _ _; rfl
  | cons x xs ih =>
    intro b c hab hbc
    cases b with
    | nil => simp [strLe] at hab
    | cons y ys =>
      cases c with
      | nil => simp [strLe] at hbc
      | cons z zs =>
        simp only [strLe] at hab hbc ⊢
        by_cases hxy : x < y
        · by_cases hyz : y < z
          · simp [lt_trans hxy hyz]
          · by_cases hzy : z < y
            · simp [hyz, hzy] at hbc
            · have hyzeq : y = z := le_antisymm (not_lt.mp hzy) (not_lt.mp hyz)
              subst hyzeq
              simp [hxy]
        · by_cases hyx : y < x
          · simp [hxy, hyx] at hab
          · have hxyeq : x = y := le_antisymm (not_lt.mp hyx) (not_lt.mp hxy)
            subst hxyeq
            simp only [hxy, if_neg, if_false, lt_irrefl] at hab ⊢
            by_cases hyz : x < z
            · simp [hyz]
            · by_cases hzy : z < x
              · simp [hyz, hzy] at hbc
              · simp only [hyz, hzy, if_false, if_neg] at hbc ⊢
                exact ih ys zs hab hbc

lemma strLe_antisymm : ∀ a b : Str, strLe a b = true → strLe b a = true →
    a = b := by
  intro a
  induction a with
  | nil =>
    intro b _ hba
    cases b with
    | nil => rfl
    | cons y ys => simp [strLe] at hba
  | cons x xs ih =>
    intro b hab hba
    cases b with
    | nil => simp [strLe] at hab
    | cons y ys =>
      simp only [strLe] at hab hba
      by_cases hxy : x < y
      · simp [hxy, lt_asymm hxy] at hba
      · by_cases hyx : y < x
        · simp [hxy, hyx] at hab
        · have hxyeq : x = y := le_antisymm (not_lt.mp hyx) (not_lt.mp hxy)
          subst hxyeq
          simp only [hxy, if_false, if_neg, lt_irrefl] at hab hba
          rw [ih ys hab hba]

lemma insertByKey_perm {α : Type} (p : GoURL × α) :
    ∀ l : List (GoURL × α), (insertByKey p l).Perm (p :: l) := by
  intro l
  induction l with
  | nil => exact List.Perm.refl _
  | cons q qs ih =>
    unfold insertByKey
    by_cases hc : strLt (withoutScheme p.1) (withoutScheme q.1) = true
    · simp only [hc, if_pos]
      exact List.Perm.refl _
    · simp only [hc, if_neg, if_false]
      exact (ih.cons q).trans (List.Perm.swap p q qs)

lemma insertByKey_mem {α : Type} (p x : GoURL × α) (l : List (GoURL × α)) :
    x ∈ insertByKey p l → x = p ∨ x ∈ l := by
  intro hx
  have := (insertByKey_perm p l).mem_iff.mp hx
  rcases List.mem_cons.mp this with h | h
  · exact Or.inl h
  · exact Or.inr h

lemma insertByKey_sorted {α : Type} (p : GoURL × α) :
    ∀ l : List (GoURL × α), l.Pairwise keyLe →
      (insertByKey p l).Pairwise keyLe := by
  intro l
  induction l with
  | nil => intro _; simp [insertByKey]
  | cons q qs ih =>
    intro hl
    rw [List.pairwise_cons] at hl
    obtain ⟨hq, hqs⟩ := hl
    unfold insertByKey
    by_cases hc : strLt (withoutScheme p.1) (withoutScheme q.1) = true
    · rw [if_pos hc, List.pairwise_cons]
      refine ⟨?_, List.pairwise_cons.mpr ⟨hq, hqs⟩⟩
      intro x hx
      rcases List.mem_cons.mp hx with rfl | hx2
      · exact strLe_of_strLt _ _ hc
      · exact strLe_trans _ _ _ (strLe_of_strLt _ _ hc) (hq x hx2)
    · rw [if_neg hc, List.pairwise_cons]
      refine ⟨?_, ih hqs⟩
      intro x hx
      rcases insertByKey_mem p x qs hx with rfl | hx2
      · exact strLe_of_not_strLt _ _ (Bool.not_eq_true _ ▸ hc)
      · exact hq x hx2

lemma sortByKey_perm {α : Type} :
    ∀ l : List (GoURL × α), (sortByKey l).Perm l := by
  intro l
  induction l with
  | nil => exact List.Perm.refl _
  | cons p ps ih =>
    unfold sortByKey
    simp only [List.foldr_cons]
    exact (insertByKey_perm p _).trans (ih.cons p)

lemma sortByKey_sorted {α : Type} :
    ∀ l : List (GoURL × α), (sortByKey l).Pairwise keyLe := by
  intro l
  induction l with
  | nil => simp [sortByKey]
  | cons p ps ih =>
    unfold sortByKey
    simp only [List.foldr_cons]
    exact insertByKey_sorted p _ ih

lemma sorted_unique_of_nodup_keys {α : Type} :
    ∀ (l₁ l₂ : List (GoURL × α)), l₁.Perm l₂ →
      l₁.Pairwise keyLe → l₂.Pairwise keyLe →
      (l₁.map (fun p => withoutScheme p.1)).Nodup → l₁ = l₂ := by
  intro l₁
  induction l₁ with
  | nil =>
    intro l₂ hp _ _ _
    exact (hp.nil_eq).symm ▸ rfl
  | cons h₁ t₁ ih =>
    intro l₂ hp hs₁ hs₂ hnd
    cases l₂ with
    | nil => exact absurd hp.symm.nil_eq (by simp)
    | cons h₂ t₂ =>
      rw [List.pairwise_cons] at hs₁ hs₂
      simp only [List.map_cons, List.nodup_cons] at hnd
      have hhead : h₁ = h₂ := by
        by_contra hne
        have h1in : h₁ ∈ h₂ :: t₂ := hp.mem_iff.mp (List.mem_cons_self _ _)
        have h1t2 : h₁ ∈ t₂ := by
          rcases List.mem_cons.mp h1in with he | h
          · exact absurd he hne
          · exact h
        have h2in : h₂ ∈ h₁ :: t₁ := hp.symm.mem_iff.mp (List.mem_cons_self _ _)
        have h2t1 : h₂ ∈ t₁ := by
          rcases List.mem_cons.mp h2in with he | h
          · exact absurd he.symm hne
          · exact h
        have hk12 : strLe (withoutScheme h₁.1) (withoutScheme h₂.1) = true :=
          hs₁.1 h₂ h2t1
        have hk21 : strLe (withoutScheme h₂.1) (withoutScheme h₁.1) = true :=
          hs₂.1 h₁ h1t2
        have hkeq := strLe_antisymm _ _ hk12 hk21
        exact hnd.1 (hkeq ▸ List.mem_map_of_mem (fun p => withoutScheme p.1) h2t1)
      subst hhead
      have htp : t₁.Perm t₂ := hp.cons_inv
      rw [ih t₂ htp hs₁.2 hs₂.2 hnd.2]

lemma renderBlocks_eq_map (ind : Nat) :
    ∀ es : List (GoURL × URLTree), renderBlocks es ind =
      es.map (fun p => (p.1,
        List.replicate (2 * ind) ' ' ++ urlString p.1 ++ ['\n'] ++
          (if treeLen p.2 ≠ 0 then URLTree.string p.2 (ind + 1) else []))) := by
  intro es
  induction es with
  | nil => rfl
  | cons p rest ih =>
    obtain ⟨k, v⟩ := p
    unfold renderBlocks
    rw [ih]
    rfl

lemma string_node_perm {es es' : List (GoURL × URLTree)} (ind : Nat)
    (hp : es.Perm es') (hnd : (es.map (fun p => withoutScheme p.1)).Nodup) :
    URLTree.string (.node es) ind = URLTree.string (.node es') ind := by
  unfold URLTree.string
  congr 1
  have hbp : (renderBlocks es ind).Perm (renderBlocks es' ind) := by
    rw [renderBlocks_eq_map, renderBlocks_eq_map]
    exact hp.map _
  have hperm : (sortByKey (renderBlocks es ind)).Perm
      (sortByKey (renderBlocks es' ind)) :=
    ((sortByKey_perm _).trans hbp).trans (sortByKey_perm _).symm
  have hkeys : ((sortByKey (renderBlocks es ind)).map
      (fun p => withoutScheme p.1)).Nodup := by
    have h1 : ((renderBlocks es ind).map (fun p => withoutScheme p.1)).Nodup := by
      rw [renderBlocks_eq_map]
      rw [List.map_map]
      exact hnd
    exact ((sortByKey_perm (renderBlocks es ind)).map
      (fun p => withoutScheme p.1)).nodup_iff.mpr h1
  exact sorted_unique_of_nodup_keys _ _ hperm (sortByKey_sorted _)
    (sortByKey_sorted _) hkeys

/-- C7.  Rendering a tree node emits its entries sorted ascending by
scheme-insensitive identity key at every level (the emitted order is
`keyLe`-sorted), the output does not depend on the order in which the
entries were inserted (for nodes with pairwise identity-distinct keys,
which the spec states as the Link Tree invariant), and each entry is
emitted on its own line indented two spaces per depth level. -/
theorem c7_render_sorted_deterministic :
    (∀ (es : List (GoURL × URLTree)) (ind : Nat),
      (sortByKey (renderBlocks es ind)).Pairwise keyLe) ∧
    (∀ (es es' : List (GoURL × URLTree)) (ind : Nat), es.Perm es' →
      (es.map (fun p => withoutScheme p.1)).Nodup →
      URLTree.string (.node es) ind = URLTree.string (.node es') ind) ∧
    (∀ (u : GoURL) (d : Nat), URLTree.string (.node [(u, .nil)]) d =
      List.replicate (2 * d) ' ' ++ urlString u ++ ['\n']) := by
  refine ⟨fun es ind => sortByKey_sorted _,
    fun es es' ind hp hnd => string_node_perm ind hp hnd,
    fun u d => ?_⟩
  show joinBlocks (sortByKey (renderBlocks [(u, .nil)] d)) = _
  simp [renderBlocks, sortByKey, insertByKey, joinBlocks, treeLen]

/-- C7's theorem applied to a two-entry node inserted in both orders:
the rendering is identical. -/
theorem c7_witness :
    URLTree.string (.node [(hURL "http" "/a", .nil), (hURL "http" "/b", .nil)]) 0 =
      URLTree.string (.node [(hURL "http" "/b", .nil), (hURL "http" "/a", .nil)]) 0 :=
  c7_render_sorted_deterministic.2.1 _ _ 0
    (List.Perm.swap (hURL "http" "/b", URLTree.nil) (hURL "http" "/a", URLTree.nil) [])
    (by decide)

/-! ## Crawl infrastructure lemmas (claims C1, C3, C4, C5, C8, C10) -/

lemma Reaches_mono {web : Web} {root : GoURL} {n : Nat} {u : GoURL}
    (h : Reaches web root n u) : ∀ m, n ≤ m → Reaches web root m u := by
  induction h with
  | refl n => exact fun m _ => Reaches.refl m
  | step n v u hv hu ih =>
    intro m hm
    cases m with
    | zero => exact absurd hm (by omega)
    | succ m2 => exact Reaches.step _ _ _ (ih m2 (by omega)) hu

lemma ensureContains_sub (s : SchemelessURLSet) (u : GoURL) :
    ∀ k ∈ s, k ∈ (SchemelessURLSet.EnsureContains s u).2 := by
  intro k hk
  unfold SchemelessURLSet.EnsureContains
  by_cases hm : withoutScheme u ∈ s
  · simpa [hm] using hk
  · simp only [hm, if_neg, if_false]
    exact List.mem_cons_of_mem _ hk

lemma ensureContains_self (s : SchemelessURLSet) (u : GoURL) :
    withoutScheme u ∈ (SchemelessURLSet.EnsureContains s u).2 := by
  unfold SchemelessURLSet.EnsureContains
  by_cases hm : withoutScheme u ∈ s
  · simp [hm]
  · simp [hm]

lemma ensureContains_fst (s : SchemelessURLSet) (u : GoURL) :
    (SchemelessURLSet.EnsureContains s u).1 = true ↔ withoutScheme u ∈ s := by
  unfold SchemelessURLSet.EnsureContains
  by_cases hm : withoutScheme u ∈ s <;> simp [hm]

lemma entriesRecList_append :
    ∀ l1 l2 : List (GoURL × URLTree),
      entriesRecList (l1 ++ l2) = entriesRecList l1 ++ entriesRecList l2 := by
  intro l1
  induction l1 with
  | nil => intro l2; simp [entriesRecList]
  | cons p rest ih =>
    intro l2
    obtain ⟨k, v⟩ := p
    simp only [List.cons_append, entriesRecList, ih, List.append_assoc,
      List.append_eq]

lemma mem_entriesRecList_upd (k : GoURL) (v : URLTree) :
    ∀ (l : List (GoURL × URLTree)) (q : GoURL × URLTree),
      q ∈ entriesRecList (l.map (fun p => if p.1 = k then (k, v) else p)) →
      q ∈ entriesRecList l ∨ q = (k, v) ∨ q ∈ entriesRec v := by
  intro l
  induction l with
  | nil => intro q hq; simp [entriesRecList] at hq
  | cons p rest ih =>
    intro q hq
    obtain ⟨k0, v0⟩ := p
    simp only [List.map_cons] at hq
    dsimp only at hq
    by_cases hk : k0 = k
    · rw [if_pos hk] at hq
      simp only [entriesRecList] at hq
      rcases List.mem_cons.mp hq with rfl | hq2
      · exact Or.inr (Or.inl rfl)
      · rcases List.mem_append.mp hq2 with hq3 | hq4
        · exact Or.inr (Or.inr hq3)
        · rcases ih q hq4 with h | h
          · exact Or.inl (by simp [entriesRecList, h])
          · exact Or.inr h
    · rw [if_neg hk] at hq
      simp only [entriesRecList] at hq
      rcases List.mem_cons.mp hq with rfl | hq2
      · exact Or.inl (by simp [entriesRecList])
      · rcases List.mem_append.mp hq2 with hq3 | hq4
        · exact Or.inl (by simp [entriesRecList, hq3])
        · rcases ih q hq4 with h | h
          · exact Or.inl (by simp [entriesRecList, h])
          · exact Or.inr h

lemma mem_entriesRecList_mapSet (l : List (GoURL × URLTree)) (k : GoURL)
    (v : URLTree) (q : GoURL × URLTree)
    (hq : q ∈ entriesRecList (mapSet l k v)) :
    q ∈ entriesRecList l ∨ q = (k, v) ∨ q ∈ entriesRec v := by
  unfold mapSet at hq
  by_cases ha : l.any (fun p => p.1 = k)
  · rw [if_pos ha] at hq
    exact mem_entriesRecList_upd k v l q hq
  · rw [if_neg ha, entriesRecList_append] at hq
    rcases List.mem_append.mp hq with h | h
    · exact Or.inl h
    · simp only [entriesRecList, List.append_nil] at h
      rcases List.mem_cons.mp h with rfl | h2
      · exact Or.inr (Or.inl rfl)
      · exact Or.inr (Or.inr (by simpa using h2))

lemma crawlChildren_shape (step : GoURL → Int → CrawlSt → CrawlRes)
    (c : Crawler) (depth : Int) :
    ∀ (hrefs : List GoURL) (entries : List (GoURL × URLTree)) (s : CrawlSt),
      (∃ es s2, crawlChildren step c depth hrefs entries s =
        ((some (.node es), none), s2)) ∨
      (∃ e s2, crawlChildren step c depth hrefs entries s = ((none, some e), s2)) := by
  intro hrefs
  induction hrefs with
  | nil => intro entries s; exact Or.inl ⟨entries, s, rfl⟩
  | cons href rest ih =>
    intro entries s
    simp only [crawlChildren]
    by_cases hex : (SchemelessURLSet.EnsureContains s.visited href).1 = true
    · rw [if_pos hex]
      exact ih _ _
    · rw [if_neg hex]
      by_cases hg : depth + 1 ≥ c.maxDepth ∨ hostname href ≠ hostname c.root
      · rw [if_pos hg]
        exact ih _ _
      · rw [if_neg hg]
        rcases hst : step href (depth + 1)
            { s with visited := (SchemelessURLSet.EnsureContains s.visited href).2,
                     events := s.events ++ [(href, depth + 1, Enc.crawled)] }
          with ⟨⟨st, _ | e⟩, s2⟩
        · exact ih _ _
        · exact Or.inr ⟨e, s2, rfl⟩

lemma crawl_shape (c : Crawler) (web : Web) :
    ∀ (fuel : Nat) (u : GoURL) (depth : Int) (s : CrawlSt),
      (∃ es s2, crawl c web fuel u depth s = ((some (.node es), none), s2)) ∨
      (∃ e s2, crawl c web fuel u depth s = ((none, some e), s2)) := by
  intro fuel u depth s
  cases fuel with
  | zero => exact Or.inr ⟨_, _, rfl⟩
  | succ f =>
    simp only [crawl]
    rcases hf : web.fetch u with e | page
    · exact Or.inr ⟨_, _, rfl⟩
    · dsimp only
      rcases hl : uniqueLinksInPage page u with e | hrefs
      · exact Or.inr ⟨_, _, rfl⟩
      · exact crawlChildren_shape _ c depth hrefs [] _

lemma crawl_none_iff (c : Crawler) (web : Web) (fuel : Nat) (u : GoURL)
    (depth : Int) (s : CrawlSt) :
    (crawl c web fuel u depth s).1.1 = none ↔
      (crawl c web fuel u depth s).1.2.isSome := by
  rcases crawl_shape c web fuel u depth s with ⟨es, s2, h⟩ | ⟨e, s2, h⟩ <;>
    rw [h] <;> simp

lemma mapSet_fresh {α : Type} (l : List (GoURL × α)) (k : GoURL) (v : α)
    (hk : withoutScheme k ∉ l.map (fun p => withoutScheme p.1)) :
    mapSet l k v = l ++ [(k, v)] := by
  unfold mapSet
  have hany : ¬ l.any (fun p => p.1 = k) := by
    intro ha
    rcases List.any_eq_true.mp ha with ⟨p, hp, hpk⟩
    have : p.1 = k := by simpa using hpk
    exact hk (this ▸ List.mem_map_of_mem (fun p => withoutScheme p.1) hp)
  rw [if_neg hany]

lemma mapSet_mem_fst {α : Type} (l : List (GoURL × α)) (k : GoURL) (v : α)
    (hk : k ∈ l.map Prod.fst) :
    (mapSet l k v).map Prod.fst = l.map Prod.fst := by
  unfold mapSet
  have hany : l.any (fun p => p.1 = k) := by
    rcases List.mem_map.mp hk with ⟨p, hp, hpk⟩
    exact List.any_eq_true.mpr ⟨p, hp, by simpa using hpk⟩
  rw [if_pos hany, List.map_map]
  apply List.map_congr_left
  intro p _
  by_cases hpk : p.1 = k
  · simp [hpk]
  · simp [hpk]

lemma crawlChildren_entries (step : GoURL → Int → CrawlSt → CrawlRes)
    (c : Crawler) (depth : Int) :
    ∀ (hrefs : List GoURL) (entries : List (GoURL × URLTree)) (s : CrawlSt)
      (es : List (GoURL × URLTree)) (s2 : CrawlSt),
      (hrefs.map withoutScheme).Nodup →
      (∀ v ∈ hrefs, withoutScheme v ∉ entries.map (fun p => withoutScheme p.1)) →
      crawlChildren step c depth hrefs entries s = ((some (.node es), none), s2) →
      es.map Prod.fst = entries.map Prod.fst ++ hrefs := by
  intro hrefs
  induction hrefs with
  | nil =>
    intro entries s es s2 _ _ heq
    simp only [crawlChildren] at heq
    injection heq with heq1 heq2
    injection heq1 with ha hb
    injection ha with ha2
    injection ha2 with ha3
    simp [← ha3]
  | cons href rest ih =>
    intro entries s es s2 hnd hdisj heq
    have hfresh : withoutScheme href ∉ entries.map (fun p => withoutScheme p.1) :=
      hdisj href (List.mem_cons_self _ _)
    have hmap1 : (mapSet entries href URLTree.nil).map Prod.fst =
        entries.map Prod.fst ++ [href] := by
      rw [mapSet_fresh entries href _ hfresh]
      simp
    have hkeys1 : (mapSet entries href URLTree.nil).map
        (fun p => withoutScheme p.1) =
        entries.map (fun p => withoutScheme p.1) ++ [withoutScheme href] := by
      rw [mapSet_fresh entries href _ hfresh]
      simp
    have hnd2 : (rest.map withoutScheme).Nodup := by
      simp only [List.map_cons, List.nodup_cons] at hnd
      exact hnd.2
    have hhr : withoutScheme href ∉ rest.map withoutScheme := by
      simp only [List.map_cons, List.nodup_cons] at hnd
      exact hnd.1
    have hdisj2 : ∀ v ∈ rest, withoutScheme v ∉
        (mapSet entries href URLTree.nil).map (fun p => withoutScheme p.1) := by
      intro v hv
      rw [hkeys1]
      intro hin
      rcases List.mem_append.mp hin with h | h
      · exact hdisj v (List.mem_cons_of_mem _ hv) h
      · simp only [List.mem_singleton] at h
        exact hhr (h ▸ List.mem_map_of_mem withoutScheme hv)
    simp only [crawlChildren] at heq
    by_cases hex : (SchemelessURLSet.EnsureContains s.visited href).1 = true
    · rw [if_pos hex] at heq
      rw [ih _ _ es s2 hnd2 hdisj2 heq, hmap1]
      simp
    · rw [if_neg hex] at heq
      by_cases hg : depth + 1 ≥ c.maxDepth ∨ hostname href ≠ hostname c.root
      · rw [if_pos hg] at heq
        rw [ih _ _ es s2 hnd2 hdisj2 heq, hmap1]
        simp
      · rw [if_neg hg] at heq
        rcases hst : step href (depth + 1)
            { s with visited := (SchemelessURLSet.EnsureContains s.visited href).2,
                     events := s.events ++ [(href, depth + 1, Enc.crawled)] }
          with ⟨⟨st, _ | e⟩, s3⟩
        · rw [hst] at heq
          have hmem : href ∈ (mapSet entries href URLTree.nil).map Prod.fst := by
            rw [hmap1]
            simp
          have hmap2 : (mapSet (mapSet entries href URLTree.nil) href
              (st.getD URLTree.nil)).map Prod.fst =
              entries.map Prod.fst ++ [href] := by
            rw [mapSet_mem_fst _ _ _ hmem, hmap1]
          have hmm : ∀ (l : List (GoURL × URLTree)),
              l.map (fun p => withoutScheme p.1) =
                (l.map Prod.fst).map withoutScheme := by
            intro l
            rw [List.map_map]
            rfl
          have hkeys2eq : (mapSet (mapSet entries href URLTree.nil) href
              (st.getD URLTree.nil)).map (fun p => withoutScheme p.1) =
              entries.map (fun p => withoutScheme p.1) ++ [withoutScheme href] := by
            rw [hmm, hmap2, List.map_append, ← hmm]
            rfl
          have hkeys2 : ∀ v ∈ rest, withoutScheme v ∉
              (mapSet (mapSet entries href URLTree.nil) href
                (st.getD URLTree.nil)).map (fun p => withoutScheme p.1) := by
            intro v hv
            have h2 := hdisj2 v hv
            rw [hkeys1] at h2
            rw [hkeys2eq]
            exact h2
          rw [ih _ _ es s2 hnd2 hkeys2 heq, hmap2]
          simp
        · rw [hst] at heq
          injection heq with heq1 _
          injection heq1 with ha _
          exact absurd ha (by simp)

lemma append_singleton_split {α : Type} (l pre post : List α) (a x : α)
    (h : l ++ [a] = pre ++ x :: post) :
    (pre = l ∧ x = a ∧ post = []) ∨
    (∃ post2, post = post2 ++ [a] ∧ l = pre ++ x :: post2) := by
  rcases List.eq_nil_or_concat post with hp | ⟨post2, b, hp⟩
  · subst hp
    obtain ⟨h1, h2⟩ := List.append_inj' h rfl
    injection h2 with h3 _
    exact Or.inl ⟨h1.symm, h3.symm, rfl⟩
  · subst hp
    rw [List.concat_eq_append] at h
    rw [show pre ++ x :: (post2 ++ [b]) = (pre ++ x :: post2) ++ [b] by simp] at h
    obtain ⟨h1, h2⟩ := List.append_inj' h rfl
    injection h2 with h3 _
    refine Or.inr ⟨post2, ?_, h1⟩
    rw [List.concat_eq_append, h3]

lemma EvInv_addTrace (c : Crawler) (s : CrawlSt) (u : GoURL) (depth : Int)
    (h1 : ∀ e ∈ s.events, e.2.2 = Enc.skippedBounds →
      withoutScheme e.1 ≠ withoutScheme u)
    (hEv : EvInv c s) :
    EvInv c { s with trace := s.trace ++ [(u, depth)] } := by
  intro pre v d o post hdec
  dsimp only at hdec
  obtain ⟨hg, hnv⟩ := hEv pre v d o post hdec
  refine ⟨fun ho => ?_, hnv⟩
  obtain ⟨hg1, hg2⟩ := hg ho
  refine ⟨hg1, ?_⟩
  simp only [traceKeys, List.map_append, List.map_cons, List.map_nil]
  intro hk
  rcases List.mem_append.mp hk with h | h
  · exact hg2 h
  · simp only [List.mem_singleton] at h
    have hmem : (v, d, o) ∈ s.events := by
      rw [hdec]
      exact List.mem_append_right pre (List.mem_cons_self _ _)
    exact h1 (v, d, o) hmem ho h

lemma EvInv_append_skipVisited (c : Crawler) (s : CrawlSt) (href : GoURL)
    (d0 : Int) (hEv : EvInv c s) :
    EvInv c { s with
      visited := (SchemelessURLSet.EnsureContains s.visited href).2,
      events := s.events ++ [(href, d0, Enc.skippedVisited)] } := by
  intro pre v d o post hdec
  dsimp only at hdec
  rcases append_singleton_split s.events pre post (href, d0, Enc.skippedVisited)
      (v, d, o) hdec with ⟨hpre, hx, hpost⟩ | ⟨post2, hpost, hev⟩
  · injection hx with hv hrest
    injection hrest with hd ho
    subst hv; subst hd; subst ho; subst hpost
    exact ⟨fun hc => Enc.noConfusion hc, fun hc => absurd rfl hc⟩
  · obtain ⟨hg, hnv⟩ := hEv pre v d o post2 hev
    subst hpost
    refine ⟨fun ho => hg ho, fun ho => ?_⟩
    obtain ⟨h1, h2⟩ := hnv ho
    refine ⟨ensureContains_sub _ _ _ h1, ?_⟩
    intro e he hk
    rcases List.mem_append.mp he with h | h
    · exact h2 e h hk
    · simp only [List.mem_singleton] at h
      subst h
      rfl

lemma EvInv_append_fresh (c : Crawler) (s : CrawlSt) (href : GoURL) (d0 : Int)
    (o0 : Enc) (hfresh : withoutScheme href ∉ s.visited)
    (hTI : ∀ k ∈ traceKeys s, k ∈ s.visited)
    (hguard : o0 = Enc.skippedBounds →
      d0 ≥ c.maxDepth ∨ hostname href ≠ hostname c.root)
    (hEv : EvInv c s) :
    EvInv c { s with
      visited := (SchemelessURLSet.EnsureContains s.visited href).2,
      events := s.events ++ [(href, d0, o0)] } := by
  intro pre v d o post hdec
  dsimp only at hdec
  rcases append_singleton_split s.events pre post (href, d0, o0)
      (v, d, o) hdec with ⟨hpre, hx, hpost⟩ | ⟨post2, hpost, hev⟩
  · injection hx with hv hrest
    injection hrest with hd ho
    subst hv; subst hd; subst ho; subst hpost
    refine ⟨fun ho => ⟨hguard ho, fun hk => hfresh (hTI _ hk)⟩,
      fun _ => ⟨ensureContains_self _ _, ?_⟩⟩
    intro e he _
    exact absurd he (List.not_mem_nil e)
  · obtain ⟨hg, hnv⟩ := hEv pre v d o post2 hev
    subst hpost
    refine ⟨fun ho => hg ho, fun ho => ?_⟩
    obtain ⟨h1, h2⟩ := hnv ho
    refine ⟨ensureContains_sub _ _ _ h1, ?_⟩
    intro e he hk
    rcases List.mem_append.mp he with h | h
    · exact h2 e h hk
    · simp only [List.mem_singleton] at h
      subst h
      exact absurd (by rw [hk]; exact h1) hfresh

lemma crawlChildren_master (web : Web) (c : Crawler) (depth : Int) (fuel : Nat)
    (hstep : ∀ v s1, Reaches web c.root (depth + 1).toNat v → TraceInv s1 →
      withoutScheme v ∈ s1.visited → withoutScheme v ∉ traceKeys s1 →
      MasterOut web c v (depth + 1) s1 (crawl c web fuel v (depth + 1) s1)) :
    ∀ (hrefs : List GoURL) (entries : List (GoURL × URLTree)) (s : CrawlSt),
      TraceInv s → (∀ v ∈ hrefs, Reaches web c.root (depth + 1).toNat v) →
      LoopOut web c depth hrefs entries s
        (crawlChildren (crawl c web fuel) c depth hrefs entries s) := by
  intro hrefs
  induction hrefs with
  | nil =>
    intro entries s hs _
    simp only [crawlChildren]
    unfold LoopOut
    refine ⟨fun k hk => hk, ⟨[], by simp, ?_⟩, hs, ?_, fun h => h⟩
    · intro p hp
      exact absurd hp (List.not_mem_nil p)
    · intro t ht q hq
      injection ht with ht2
      rw [← ht2] at hq
      simp only [entriesRec] at hq
      exact Or.inl hq
  | cons href rest ih =>
    intro entries s hs hreach
    have hrr : ∀ v ∈ rest, Reaches web c.root (depth + 1).toNat v :=
      fun v hv => hreach v (List.mem_cons_of_mem _ hv)
    have hrh : Reaches web c.root (depth + 1).toNat href :=
      hreach href (List.mem_cons_self _ _)
    have hs1 : ∀ E : List (GoURL × Int × Enc), TraceInv
        { s with visited := (SchemelessURLSet.EnsureContains s.visited href).2,
                 events := E } := by
      intro E
      obtain ⟨h1, h2⟩ := hs
      exact ⟨h1, fun k hk => ensureContains_sub _ _ k (h2 k hk)⟩
    have hskip : ∀ o : Enc,
        (EvInv c s → EvInv c
          { s with visited := (SchemelessURLSet.EnsureContains s.visited href).2,
                   events := s.events ++ [(href, depth + 1, o)] }) →
        LoopOut web c depth (href :: rest) entries s
        (crawlChildren (crawl c web fuel) c depth rest (mapSet entries href URLTree.nil)
          { s with visited := (SchemelessURLSet.EnsureContains s.visited href).2,
                   events := s.events ++ [(href, depth + 1, o)] }) := by
      intro o hEvStep
      have hloop := ih (mapSet entries href URLTree.nil)
        { s with visited := (SchemelessURLSet.EnsureContains s.visited href).2,
                 events := s.events ++ [(href, depth + 1, o)] } (hs1 _) hrr
      unfold LoopOut at hloop ⊢
      obtain ⟨hB1, ⟨ts, hts, htsp⟩, hB3, hB4, hB5⟩ := hloop
      refine ⟨?_, ⟨ts, hts, ?_⟩, hB3, ?_, fun hEv => hB5 (hEvStep hEv)⟩
      · intro k hk
        exact hB1 k (ensureContains_sub _ _ k hk)
      · intro p hp
        obtain ⟨hp0, hp1, hp2, hp3⟩ := htsp p hp
        refine ⟨hp0, hp1, hp2, ?_⟩
        rcases hp3 with ⟨hm, hd2⟩ | h
        · exact Or.inl ⟨List.mem_cons_of_mem _ hm, hd2⟩
        · exact Or.inr h
      · intro t ht q hq
        rcases hB4 t ht q hq with hin | hgood
        · rcases mem_entriesRecList_mapSet _ _ _ _ hin with h | h | h
          · exact Or.inl h
          · refine Or.inr ⟨?_, ?_⟩
            · rw [h]
              exact hB1 _ (ensureContains_self _ _)
            · rw [h]
              intro hne
              exact absurd rfl hne
          · simp [entriesRec] at h
        · exact Or.inr hgood
    simp only [crawlChildren]
    by_cases hex : (SchemelessURLSet.EnsureContains s.visited href).1 = true
    · rw [if_pos hex]
      exact hskip Enc.skippedVisited
        (fun hEv => EvInv_append_skipVisited c s href (depth + 1) hEv)
    · rw [if_neg hex]
      have hnm : withoutScheme href ∉ s.visited :=
        fun hm => hex ((ensureContains_fst _ _).mpr hm)
      by_cases hg : depth + 1 ≥ c.maxDepth ∨ hostname href ≠ hostname c.root
      · rw [if_pos hg]
        exact hskip Enc.skippedBounds
          (fun hEv => EvInv_append_fresh c s href (depth + 1) Enc.skippedBounds hnm
            hs.2 (fun _ => hg) hEv)
      · rw [if_neg hg]
        push_neg at hg
        have hmem1 : withoutScheme href ∈
            ({ s with visited := (SchemelessURLSet.EnsureContains s.visited href).2,
                      events := s.events ++ [(href, depth + 1, Enc.crawled)] } : CrawlSt).visited :=
          ensureContains_self _ _
        have hnotk : withoutScheme href ∉ traceKeys
            { s with visited := (SchemelessURLSet.EnsureContains s.visited href).2,
                     events := s.events ++ [(href, depth + 1, Enc.crawled)] } := by
          intro hk
          exact hnm (hs.2 _ hk)
        have hH1 : EvInv c s →
            ∀ e ∈ ({ s with
                visited := (SchemelessURLSet.EnsureContains s.visited href).2,
                events := s.events ++ [(href, depth + 1, Enc.crawled)] } : CrawlSt).events,
              e.2.2 = Enc.skippedBounds →
              withoutScheme e.1 ≠ withoutScheme href := by
          intro hEv e2 he2 hb2 hkeq
          dsimp only at he2
          rcases List.mem_append.mp he2 with h | h
          · obtain ⟨epre, epost, hdec⟩ := List.append_of_mem h
            have h4 := ((hEv epre e2.1 e2.2.1 e2.2.2 epost (by rw [hdec])).2
              (by rw [hb2]; exact fun hc => Enc.noConfusion hc)).1
            rw [hkeq] at h4
            exact hnm h4
          · simp only [List.mem_singleton] at h
            rw [h] at hb2
            exact Enc.noConfusion hb2
        have hEvC : EvInv c s → EvInv c
            { s with visited := (SchemelessURLSet.EnsureContains s.visited href).2,
                     events := s.events ++ [(href, depth + 1, Enc.crawled)] } :=
          fun hEv => EvInv_append_fresh c s href (depth + 1) Enc.crawled hnm hs.2
            (fun hc => Enc.noConfusion hc) hEv
        have hM := hstep href _ hrh (hs1 _) hmem1 hnotk
        rcases hres : crawl c web fuel href (depth + 1)
            { s with visited := (SchemelessURLSet.EnsureContains s.visited href).2,
                     events := s.events ++ [(href, depth + 1, Enc.crawled)] }
          with ⟨⟨st, se⟩, s2⟩
        rw [hres] at hM
        unfold MasterOut at hM
        obtain ⟨hA1, ⟨ts1, hts1, hts1p⟩, hA3, hA4, hA5, hA6⟩ := hM
        cases se with
        | some e =>
          unfold LoopOut
          refine ⟨?_, ⟨ts1, hts1, ?_⟩, hA3, ?_,
            fun hEv => hA6 (hEvC hEv) (hH1 hEv)⟩
          · intro k hk
            exact hA1 k (ensureContains_sub _ _ k hk)
          · intro p hp
            obtain ⟨hp0, hp1, hp2, hp3⟩ := hts1p p hp
            refine ⟨hp0, hp1, ?_, ?_⟩
            · rcases hp2 with he | ⟨hlt2, hlt3⟩
              · exact ⟨by omega, by rw [he]; exact hg.1⟩
              · exact ⟨by omega, hlt3⟩
            · rcases hp3 with he | ⟨w, d2, hw, hl⟩
              · refine Or.inl ⟨?_, ?_⟩
                · rw [he]
                  exact List.mem_cons_self _ _
                · rw [he]
              · exact Or.inr ⟨w, d2, hw, hl⟩
          · intro t ht q hq
            exact absurd ht (by simp)
        | none =>
          have hloop := ih (mapSet (mapSet entries href URLTree.nil) href
            (st.getD URLTree.nil)) s2 hA3 hrr
          unfold LoopOut at hloop ⊢
          obtain ⟨hB1, ⟨ts2, hts2, hts2p⟩, hB3, hB4, hB5⟩ := hloop
          refine ⟨?_, ⟨ts1 ++ ts2, ?_, ?_⟩, hB3, ?_,
            fun hEv => hB5 (hA6 (hEvC hEv) (hH1 hEv))⟩
          · intro k hk
            exact hB1 k (hA1 k (ensureContains_sub _ _ k hk))
          · rw [hts2, hts1]
            simp [List.append_assoc]
          · intro p hp
            rcases List.mem_append.mp hp with hp1 | hp2
            · obtain ⟨hp0, hr1, hp2', hp3⟩ := hts1p p hp1
              refine ⟨hp0, hr1, ?_, ?_⟩
              · rcases hp2' with he | ⟨hlt2, hlt3⟩
                · exact ⟨by omega, by rw [he]; exact hg.1⟩
                · exact ⟨by omega, hlt3⟩
              · rcases hp3 with he | ⟨w, d2, hw, hl⟩
                · refine Or.inl ⟨?_, ?_⟩
                  · rw [he]
                    exact List.mem_cons_self _ _
                  · rw [he]
                · refine Or.inr ⟨w, d2, ?_, hl⟩
                  rw [hts2]
                  exact List.mem_append_left _ hw
            · obtain ⟨hp0, hr1, ⟨hl1, hl2⟩, hp3⟩ := hts2p p hp2
              refine ⟨hp0, hr1, ⟨by omega, hl2⟩, ?_⟩
              rcases hp3 with ⟨hm, he⟩ | h
              · exact Or.inl ⟨List.mem_cons_of_mem _ hm, he⟩
              · exact Or.inr h
          · intro t ht q hq
            rcases hB4 t ht q hq with hin | hgood
            · rcases mem_entriesRecList_mapSet _ _ _ _ hin with h | h | h
              · rcases mem_entriesRecList_mapSet _ _ _ _ h with h2 | h2 | h2
                · exact Or.inl h2
                · refine Or.inr ⟨?_, ?_⟩
                  · rw [h2]
                    exact hB1 _ (hA1 _ (ensureContains_self _ _))
                  · rw [h2]
                    intro hne
                    exact absurd rfl hne
                · simp [entriesRec] at h2
              · refine Or.inr ⟨?_, ?_⟩
                · rw [h]
                  exact hB1 _ (hA1 _ (ensureContains_self _ _))
                · rw [h]
                  intro _
                  refine ⟨depth + 1, ?_⟩
                  rw [hts2]
                  exact List.mem_append_left _ (hA5 rfl)
              · cases hst2 : st with
                | none =>
                  rw [hst2] at h
                  simp [entriesRec] at h
                | some t2 =>
                  subst hst2
                  simp only [Option.getD_some] at h
                  obtain ⟨hv, htr⟩ := hA4 t2 rfl q h
                  refine Or.inr ⟨?_, ?_⟩
                  · exact hB1 _ hv
                  · intro hne
                    obtain ⟨d, hd⟩ := htr hne
                    refine ⟨d, ?_⟩
                    have hfin : (q.1, d) ∈ (crawlChildren (crawl c web fuel) c depth
                        rest (mapSet (mapSet entries href URLTree.nil) href
                          ((some t2).getD URLTree.nil)) s2).2.trace := by
                      rw [hts2]
                      exact List.mem_append_left _ hd
                    exact hfin
            · exact Or.inr hgood

lemma crawl_master (web : Web) (c : Crawler) :
    ∀ (fuel : Nat) (u : GoURL) (depth : Int) (s : CrawlSt),
      0 ≤ depth → Reaches web c.root depth.toNat u → TraceInv s →
      withoutScheme u ∈ s.visited → withoutScheme u ∉ traceKeys s →
      MasterOut web c u depth s (crawl c web fuel u depth s) := by
  intro fuel
  induction fuel with
  | zero =>
    intro u depth s hd hr hs hv hk
    unfold MasterOut
    refine ⟨?_, ⟨[], ?_, ?_⟩, ?_, ?_, ?_, fun h _ => h⟩
    · exact fun k hk2 => hk2
    · exact (List.append_nil s.trace).symm
    · intro p hp
      exact absurd hp (List.not_mem_nil p)
    · exact hs
    · intro t ht q hq
      have ht2 : (none : Option URLTree) = some t := ht
      simp at ht2
    · intro h5
      have h52 : (some "fuel exhausted".data : Option Str) = none := h5
      simp at h52
  | succ f ihf =>
    intro u depth s hd hr hs hv hk
    have hTI1 : TraceInv { s with trace := s.trace ++ [(u, depth)] } := by
      obtain ⟨h1, h2⟩ := hs
      constructor
      · simp only [traceKeys, List.map_append, List.map_cons, List.map_nil]
        rw [List.nodup_append]
        refine ⟨h1, List.nodup_singleton _, ?_⟩
        intro a ha hb
        simp only [List.mem_singleton] at hb
        rw [hb] at ha
        exact hk ha
      · intro k2 hk2
        simp only [traceKeys, List.map_append, List.map_cons, List.map_nil] at hk2
        rcases List.mem_append.mp hk2 with h | h
        · exact h2 k2 h
        · simp only [List.mem_singleton] at h
          exact h ▸ hv
    have hmemtr : (u, depth) ∈ s.trace ++ [(u, depth)] :=
      List.mem_append_right _ (by simp)
    simp only [crawl]
    rcases hf : web.fetch u with e | page
    · unfold MasterOut
      refine ⟨?_, ⟨[(u, depth)], ?_, ?_⟩, ?_, ?_, ?_,
        fun hEv h1 => EvInv_addTrace c s u depth h1 hEv⟩
      · exact fun k hk2 => hk2
      · exact rfl
      · intro p hp
        simp only [List.mem_singleton] at hp
        rw [hp]
        exact ⟨hd, hr, Or.inl rfl, Or.inl rfl⟩
      · exact hTI1
      · intro t ht q hq
        have ht2 : (none : Option URLTree) = some t := ht
        simp at ht2
      · intro _
        exact hmemtr
    · dsimp only
      rcases hl : uniqueLinksInPage page u with e | hrefs
      · unfold MasterOut
        refine ⟨?_, ⟨[(u, depth)], ?_, ?_⟩, ?_, ?_, ?_,
          fun hEv h1 => EvInv_addTrace c s u depth h1 hEv⟩
        · exact fun k hk2 => hk2
        · exact rfl
        · intro p hp
          simp only [List.mem_singleton] at hp
          rw [hp]
          exact ⟨hd, hr, Or.inl rfl, Or.inl rfl⟩
        · exact hTI1
        · intro t ht q hq
          have ht2 : (none : Option URLTree) = some t := ht
          simp at ht2
        · intro _
          exact hmemtr
      · have hrefs_eq : hrefs = pageLinks web u := by
          cases page with
          | error e2 => simp [uniqueLinksInPage] at hl
          | ok doc =>
            simp only [uniqueLinksInPage] at hl
            injection hl with hl2
            unfold pageLinks
            rw [hf]
            exact hl2.symm
        have hreach2 : ∀ v ∈ hrefs, Reaches web c.root (depth + 1).toNat v := by
          intro v hv2
          rw [hrefs_eq] at hv2
          have ht1 : (depth + 1).toNat = depth.toNat + 1 := by omega
          rw [ht1]
          exact Reaches.step _ _ _ hr hv2
        have hstep : ∀ v s1, Reaches web c.root (depth + 1).toNat v → TraceInv s1 →
            withoutScheme v ∈ s1.visited → withoutScheme v ∉ traceKeys s1 →
            MasterOut web c v (depth + 1) s1 (crawl c web f v (depth + 1) s1) :=
          fun v s1 h1 h2 h3 h4 => ihf v (depth + 1) s1 (by omega) h1 h2 h3 h4
        have hloop := crawlChildren_master web c depth f hstep hrefs []
          { s with trace := s.trace ++ [(u, depth)] } hTI1 hreach2
        unfold LoopOut at hloop
        obtain ⟨hB1, ⟨ts, hts, htsp⟩, hB3, hB4, hB5⟩ := hloop
        unfold MasterOut
        refine ⟨?_, ⟨(u, depth) :: ts, ?_, ?_⟩, ?_, ?_, ?_,
          fun hEv h1 => hB5 (EvInv_addTrace c s u depth h1 hEv)⟩
        · exact hB1
        · rw [hts]
          simp
        · intro p hp
          rcases List.mem_cons.mp hp with hp1 | hp2
          · rw [hp1]
            exact ⟨hd, hr, Or.inl rfl, Or.inl rfl⟩
          · obtain ⟨hp0, hp1, ⟨hlt1, hlt2⟩, hp3⟩ := htsp p hp2
            refine ⟨hp0, hp1, Or.inr ⟨hlt1, hlt2⟩, ?_⟩
            rcases hp3 with ⟨hm, he⟩ | ⟨w, d2, hw, hlnk⟩
            · refine Or.inr ⟨u, depth, ?_, ?_⟩
              · rw [hts]
                exact List.mem_append_left _ hmemtr
              · rw [← hrefs_eq]
                exact hm
            · exact Or.inr ⟨w, d2, hw, hlnk⟩
        · exact hB3
        · intro t ht q hq
          rcases hB4 t ht q hq with hin | hgood
          · simp [entriesRecList] at hin
          · exact hgood
        · intro _
          rw [hts]
          exact List.mem_append_left _ hmemtr

lemma Run_master (c : Crawler) (web : Web) :
    MasterOut web c c.root 0
      { visited := (SchemelessURLSet.EnsureContains ([] : SchemelessURLSet) c.root).2,
        trace := ([] : List (GoURL × Int)),
        events := ([] : List (GoURL × Int × Enc)) }
      (Crawler.Run c web) := by
  have hti : TraceInv
      { visited := (SchemelessURLSet.EnsureContains ([] : SchemelessURLSet) c.root).2,
        trace := ([] : List (GoURL × Int)),
        events := ([] : List (GoURL × Int × Enc)) } := by
    constructor
    · simp [traceKeys]
    · intro k hk
      simp [traceKeys] at hk
  have hv : withoutScheme c.root ∈
      (SchemelessURLSet.EnsureContains ([] : SchemelessURLSet) c.root).2 :=
    ensureContains_self [] c.root
  have hk : withoutScheme c.root ∉ traceKeys
      { visited := (SchemelessURLSet.EnsureContains ([] : SchemelessURLSet) c.root).2,
        trace := ([] : List (GoURL × Int)),
        events := ([] : List (GoURL × Int × Enc)) } := by
    simp [traceKeys]
  unfold Crawler.Run
  exact crawl_master web c (c.maxDepth.toNat + 1) c.root 0 _ (le_refl 0)
    (Reaches.refl 0) hti hv hk

/-- C1.  Depth bound: with `maxDepth = D ≥ 0`, every URL the crawler ever
fetches is reachable from the entrypoint within `D` link hops (no URL
more than `D` hops away is ever fetched), and every tree entry with a
present (non-nil) subtree — an expanded URL — is likewise within `D`
hops, so a URL beyond the bound appears, if at all, only as a leaf with
an absent subtree. -/
theorem c1_depth_bound (c : Crawler) (web : Web) (hD : 0 ≤ c.maxDepth) :
    (∀ p ∈ (Crawler.Run c web).2.trace, Reaches web c.root c.maxDepth.toNat p.1) ∧
    (∀ t, (Crawler.Run c web).1.1 = some t → ∀ q ∈ entriesRec t,
      q.2 ≠ URLTree.nil → Reaches web c.root c.maxDepth.toNat q.1) := by
  have hM := Run_master c web
  unfold MasterOut at hM
  obtain ⟨_, ⟨ts, hts, htsp⟩, _, hA4, _, _⟩ := hM
  have hts2 : (Crawler.Run c web).2.trace = ts := by
    rw [hts]
    rfl
  have htrace : ∀ p ∈ (Crawler.Run c web).2.trace,
      Reaches web c.root c.maxDepth.toNat p.1 := by
    intro p hp
    rw [hts2] at hp
    obtain ⟨hp0, hp1, hp2, _⟩ := htsp p hp
    apply Reaches_mono hp1
    rcases hp2 with he | ⟨h1, h2⟩
    · omega
    · omega
  refine ⟨htrace, ?_⟩
  intro t ht q hq hne
  obtain ⟨_, htr⟩ := hA4 t ht q hq
  obtain ⟨d, hd⟩ := htr hne
  exact htrace (q.1, d) hd

/-- C1's theorem applied to the four-page site at depth 3. -/
theorem c1_witness :
    (0 : Int) ≤ crawlerTwoSchemes.maxDepth ∧
    ∀ p ∈ (Crawler.Run crawlerTwoSchemes webTwoSchemes).2.trace,
      Reaches webTwoSchemes crawlerTwoSchemes.root
        crawlerTwoSchemes.maxDepth.toNat p.1 :=
  ⟨by decide, (c1_depth_bound crawlerTwoSchemes webTwoSchemes (by decide)).1⟩

/-- C10.  Every URL handed to the loop of `crawl` is inserted into the
visited set before the depth and host bounds are checked, and a URL
first reached at the depth limit or off-host is never expanded by any
later encounter, in-bounds or not.  Concretely: no identity key is ever
fetched twice in a run (the fetch trace's keys are pairwise distinct);
every entry listed in the returned tree — the bounds-rejected leaves
included — has its key in the final visited set; and whenever the run's
encounter log records a bounds skip of `v` (the loop branch reached only
on a key that was fresh and was just inserted — so this is `v`'s first
reach, and the guard did reject it), then every later encounter of `v`'s
key is skipped because the key is already visited, no fetch of that key
is ever issued at any point of the run, and every entry of that key in
the returned tree is a nil leaf (an unexpanded entry). -/
theorem c10_admission_precedes_bounds (c : Crawler) (web : Web) :
    (traceKeys (Crawler.Run c web).2).Nodup ∧
    (∀ t, (Crawler.Run c web).1.1 = some t → ∀ q ∈ entriesRec t,
      withoutScheme q.1 ∈ (Crawler.Run c web).2.visited) ∧
    (∀ pre v d post,
      (Crawler.Run c web).2.events = pre ++ (v, d, Enc.skippedBounds) :: post →
      (d ≥ c.maxDepth ∨ hostname v ≠ hostname c.root) ∧
      withoutScheme v ∈ (Crawler.Run c web).2.visited ∧
      (∀ e ∈ post, withoutScheme e.1 = withoutScheme v →
        e.2.2 = Enc.skippedVisited) ∧
      (∀ p ∈ (Crawler.Run c web).2.trace,
        withoutScheme p.1 ≠ withoutScheme v) ∧
      (∀ t, (Crawler.Run c web).1.1 = some t → ∀ q ∈ entriesRec t,
        withoutScheme q.1 = withoutScheme v → q.2 = URLTree.nil)) := by
  have hM := Run_master c web
  unfold MasterOut at hM
  obtain ⟨_, _, hA3, hA4, _, hA6⟩ := hM
  have hEv : EvInv c (Crawler.Run c web).2 := by
    refine hA6 ?_ ?_
    · intro pre v d o post hdec
      dsimp only at hdec
      simp at hdec
    · intro e he
      dsimp only at he
      exact absurd he (List.not_mem_nil e)
  refine ⟨hA3.1, fun t ht q hq => (hA4 t ht q hq).1, ?_⟩
  intro pre v d post hdec
  obtain ⟨hg, hnv⟩ := hEv pre v d Enc.skippedBounds post hdec
  obtain ⟨hg1, hg2⟩ := hg rfl
  obtain ⟨h1, h2⟩ := hnv (fun hc => Enc.noConfusion hc)
  refine ⟨hg1, h1, h2, ?_, ?_⟩
  · intro p hp hkeq
    apply hg2
    have hx : withoutScheme p.1 ∈ traceKeys (Crawler.Run c web).2 :=
      List.mem_map_of_mem (fun q => withoutScheme q.1) hp
    rw [hkeq] at hx
    exact hx
  · intro t ht q hq hkeq
    by_contra hne
    obtain ⟨d2, hd2⟩ := (hA4 t ht q hq).2 hne
    apply hg2
    have hx : withoutScheme q.1 ∈ traceKeys (Crawler.Run c web).2 :=
      List.mem_map_of_mem (fun r => withoutScheme r.1) hd2
    rw [hkeq] at hx
    exact hx

/-- C10's theorem applied to the three-page site `webLate` at depth 2:
`/target` is first reached on `/deep`'s page, where the depth guard
rejects it (it would be at depth 2); its key is nevertheless in the
final visited set, the later in-bounds encounter on `/entry`'s own page
is skipped as already visited, `/target` is never fetched, and both its
tree entries are nil leaves. -/
theorem c10_witness :
    (Crawler.Run crawlerLate webLate).2.events =
      [(hURL "http" "/deep", 1, Enc.crawled),
        (hURL "http" "/target", 2, Enc.skippedBounds),
        (hURL "http" "/target", 1, Enc.skippedVisited)] ∧
    ((2 ≥ crawlerLate.maxDepth ∨
        hostname (hURL "http" "/target") ≠ hostname crawlerLate.root) ∧
      withoutScheme (hURL "http" "/target") ∈
        (Crawler.Run crawlerLate webLate).2.visited ∧
      (∀ e ∈ [(hURL "http" "/target", (1 : Int), Enc.skippedVisited)],
        withoutScheme e.1 = withoutScheme (hURL "http" "/target") →
          e.2.2 = Enc.skippedVisited) ∧
      (∀ p ∈ (Crawler.Run crawlerLate webLate).2.trace,
        withoutScheme p.1 ≠ withoutScheme (hURL "http" "/target")) ∧
      (∀ t, (Crawler.Run crawlerLate webLate).1.1 = some t →
        ∀ q ∈ entriesRec t,
          withoutScheme q.1 = withoutScheme (hURL "http" "/target") →
            q.2 = URLTree.nil)) :=
  ⟨by decide,
    (c10_admission_precedes_bounds crawlerLate webLate).2.2
      [(hURL "http" "/deep", 1, Enc.crawled)] (hURL "http" "/target") 2
      [(hURL "http" "/target", 1, Enc.skippedVisited)] (by decide)⟩

/-- C5.  Link extraction is resolution against the page URL followed by
page-local dedup: the extractor's fused walk equals taking the first
href of each anchor in pre-order, resolving each against the page URL
(`parseToAbsURL`, dropping unparseable ones), and then deduplicating by
identity key keeping first occurrences — so resolution happens before
dedup; and every URL the crawler fetches is the entrypoint or a link the
extractor produced on some fetched page, so resolution also happens
before any sub-crawl is started. -/
theorem c5_resolve_before_dedup_and_crawl :
    (∀ (pageURL : GoURL) (as : List HtmlNode),
      extractLinks pageURL as [] = dedupByKey (specResolvedLinks pageURL as)) ∧
    (∀ (c : Crawler) (web : Web), ∀ p ∈ (Crawler.Run c web).2.trace,
      p.1 = c.root ∨ ∃ w d2, (w, d2) ∈ (Crawler.Run c web).2.trace ∧
        p.1 ∈ pageLinks web w) := by
  constructor
  · intro pageURL as
    rw [extractLinks_eq_dedup]
    rfl
  · intro c web p hp
    have hM := Run_master c web
    unfold MasterOut at hM
    obtain ⟨_, ⟨ts, hts, htsp⟩, _, _, _, _⟩ := hM
    have hts2 : (Crawler.Run c web).2.trace = ts := by
      rw [hts]
      rfl
    rw [hts2] at hp
    obtain ⟨_, _, _, hp3⟩ := htsp p hp
    rcases hp3 with he | ⟨w, d2, hw, hl⟩
    · left
      rw [he]
    · right
      rw [hts2]
      rw [hts2] at hw
      exact ⟨w, d2, hw, hl⟩

/-- C5's theorem applied to a concrete page (refinement instance) and to
a concrete non-root fetch of the four-page run. -/
theorem c5_witness :
    (extractLinks (hURL "http" "/entry") [aEl "/a".data, aEl "/a".data] [] =
      dedupByKey (specResolvedLinks (hURL "http" "/entry")
        [aEl "/a".data, aEl "/a".data])) ∧
    ((hURL "http" "/a", (1 : Int)).1 = crawlerTwoSchemes.root ∨
      ∃ w d2, (w, d2) ∈ (Crawler.Run crawlerTwoSchemes webTwoSchemes).2.trace ∧
        (hURL "http" "/a", (1 : Int)).1 ∈ pageLinks webTwoSchemes w) :=
  ⟨c5_resolve_before_dedup_and_crawl.1 _ _,
    c5_resolve_before_dedup_and_crawl.2 crawlerTwoSchemes webTwoSchemes
      (hURL "http" "/a", 1) (by decide)⟩

lemma collectResultsLoop_first_error :
    ∀ (pre : List CResult) (acc : List (Str × LinkTree)) (r : CResult)
      (post : List CResult) (e : Str),
      (∀ x ∈ pre, x.err = none) → r.err = some e →
      collectResultsLoop (pre ++ r :: post) acc = (none, some e) := by
  intro pre
  induction pre with
  | nil =>
    intro acc r post e _ hr
    simp only [List.nil_append, collectResultsLoop]
    rw [hr]
  | cons p pre2 ih =>
    intro acc r post e hpre hr
    have hp : p.err = none := hpre p (List.mem_cons_self _ _)
    simp only [List.cons_append, collectResultsLoop]
    rw [hp]
    exact ih _ r post e (fun x hx => hpre x (List.mem_cons_of_mem _ hx)) hr

/-- C3.  Fail-fast aggregation: in `collectResults` (the Aggregate step
of src/crawler.go, consuming the funneled child results in arrival
order), the first received error aborts the aggregation and is returned
as the single error with no tree — the remaining results do not affect
the outcome; at every level of the recursive crawl a call returns no
tree exactly when it returns an error; and at the root, a failed run
returns an error and no partial tree. -/
theorem c3_first_error_aborts :
    (∀ (pre : List CResult) (r : CResult) (post : List CResult) (e : Str),
      (∀ x ∈ pre, x.err = none) → r.err = some e →
      collectResults (pre ++ r :: post) = (none, some e)) ∧
    (∀ (c : Crawler) (web : Web) (fuel : Nat) (u : GoURL) (depth : Int) (s : CrawlSt),
      (crawl c web fuel u depth s).1.1 = none ↔
        (crawl c web fuel u depth s).1.2.isSome) ∧
    (∀ (c : Crawler) (web : Web) (e : Str),
      (Crawler.Run c web).1.2 = some e → (Crawler.Run c web).1.1 = none) := by
  refine ⟨fun pre r post e hpre hr =>
      collectResultsLoop_first_error pre [] r post e hpre hr,
    fun c web fuel u depth s => crawl_none_iff c web fuel u depth s,
    fun c web e he => ?_⟩
  unfold Crawler.Run at he ⊢
  refine (crawl_none_iff c web _ c.root 0 _).mpr ?_
  rw [he]
  rfl

/-- C3's theorem applied to an aggregation of three child results whose
second reports an error: the error is returned and the tree dropped. -/
theorem c3_witness :
    collectResults [⟨"x".data, .nil, none⟩, ⟨"y".data, .nil, some "boom".data⟩,
      ⟨"z".data, .nil, none⟩] = (none, some "boom".data) :=
  c3_first_error_aborts.1 [⟨"x".data, .nil, none⟩]
    ⟨"y".data, .nil, some "boom".data⟩ [⟨"z".data, .nil, none⟩] "boom".data
    (by
      intro x hx
      simp only [List.mem_singleton] at hx
      subst hx
      rfl)
    rfl

lemma crawl_success_entries (c : Crawler) (web : Web) (fuel : Nat) (u : GoURL)
    (depth : Int) (s : CrawlSt)
    (hok : (crawl c web (fuel + 1) u depth s).1.2 = none) :
    ∃ es, (crawl c web (fuel + 1) u depth s).1.1 = some (.node es) ∧
      es.map Prod.fst = pageLinks web u := by
  simp only [crawl] at hok ⊢
  cases hfe : web.fetch u with
  | error e =>
    rw [hfe] at hok
    have h2 : (some (wrapErr ("error fetching ".data ++ urlString u) e) : Option Str)
        = none := hok
    simp at h2
  | ok page =>
    rw [hfe] at hok
    dsimp only at hok ⊢
    cases hlp : uniqueLinksInPage page u with
    | error e =>
      rw [hlp] at hok
      have h2 : (some (wrapErr ("error finding links on ".data ++ urlString u) e) :
          Option Str) = none := hok
      simp at h2
    | ok hrefs =>
      rw [hlp] at hok
      dsimp only at hok ⊢
      have hrefs_eq : hrefs = pageLinks web u := by
        cases page with
        | error e2 => simp [uniqueLinksInPage] at hlp
        | ok doc =>
          simp only [uniqueLinksInPage] at hlp
          injection hlp with hl2
          unfold pageLinks
          rw [hfe]
          exact hl2.symm
      have hnd : (hrefs.map withoutScheme).Nodup := by
        rw [hrefs_eq]
        unfold pageLinks
        rw [hfe]
        cases page with
        | error e2 => simp
        | ok doc => exact extractLinks_nodup u (anchorsNode doc)
      rcases crawlChildren_shape (crawl c web fuel) c depth hrefs []
          { s with trace := s.trace ++ [(u, depth)] } with ⟨es, s2, heq⟩ | ⟨e, s2, heq⟩
      · refine ⟨es, ?_, ?_⟩
        · rw [heq]
        · have hmf := crawlChildren_entries (crawl c web fuel) c depth hrefs []
            { s with trace := s.trace ++ [(u, depth)] } es s2 hnd
            (by intro v _ hin; simp at hin) heq
          rw [hmf, hrefs_eq]
          rfl
      · rw [heq] at hok
        have h2 : (some e : Option Str) = none := hok
        simp at h2

/-- C4.  A crawl run that completes without error returns a tree that is
never nil at the root: it is a map node, whose entry list is empty
exactly when no links were found (and hence none admitted) on the entry
page. -/
theorem c4_root_tree_not_nil (c : Crawler) (web : Web)
    (hok : (Crawler.Run c web).1.2 = none) :
    ∃ es, (Crawler.Run c web).1.1 = some (.node es) ∧
      (es = [] ↔ pageLinks web c.root = []) := by
  unfold Crawler.Run at hok ⊢
  obtain ⟨es, h1, h2⟩ := crawl_success_entries c web c.maxDepth.toNat c.root 0 _ hok
  refine ⟨es, h1, ?_⟩
  constructor
  · intro he
    rw [he] at h2
    exact h2.symm
  · intro hh
    rw [hh] at h2
    exact List.map_eq_nil_iff.mp h2

/-- C4's theorem applied to a one-page site with no links: the run
succeeds and the root tree is the empty (but present) map. -/
theorem c4_witness :
    (Crawler.Run ⟨hURL "http" "/entry", 1⟩ webSingle).1.2 = none ∧
    ∃ es, (Crawler.Run ⟨hURL "http" "/entry", 1⟩ webSingle).1.1 =
        some (.node es) ∧
      (es = [] ↔ pageLinks webSingle (⟨hURL "http" "/entry", 1⟩ : Crawler).root = []) :=
  ⟨rfl, c4_root_tree_not_nil ⟨hURL "http" "/entry", 1⟩ webSingle rfl⟩

/-! ## Scheme dedup across pages (claim C8) -/

/-- On `webTwoSchemes`, `http://h/x` is discovered and fetched (trace
position 2) before `https://h/x` is ever discovered (on `/b`'s page,
fetched last), yet the rendered tree shows both forms: the `https` form
reappears as an unexpanded leaf because dedup by scheme-less key is
page-local and the visited set only prevents re-expansion, not
re-listing. -/
theorem c8_counterexample :
    runTwoSchemes.1.2 = none ∧
    runTwoSchemes.2.trace =
      [(hURL "http" "/entry", 0), (hURL "http" "/a", 1),
        (hURL "http" "/x", 2), (hURL "http" "/b", 1)] ∧
    occursIn "http://h/x".data (URLTree.string treeTwoSchemes 0) = true ∧
    occursIn "https://h/x".data (URLTree.string treeTwoSchemes 0) = true := by
  have ht : treeTwoSchemes =
      .node [(hURL "http" "/a", .node [(hURL "http" "/x", .node [])]),
             (hURL "http" "/b", .node [(hURL "https" "/x", .nil)])] := rfl
  refine ⟨rfl, by decide, ?_, ?_⟩
  · rw [ht]
    simp [URLTree.string, renderBlocks, sortByKey, insertByKey, joinBlocks, treeLen,
      strLt, withoutScheme, urlString, goParseURL, validPercent, splitScheme,
      splitSchemeAux, splitHost, hURL, isHexChar, occursIn, leadsWith]
  · rw [ht]
    simp [URLTree.string, renderBlocks, sortByKey, insertByKey, joinBlocks, treeLen,
      strLt, withoutScheme, urlString, goParseURL, validPercent, splitScheme,
      splitSchemeAux, splitHost, hURL, isHexChar, occursIn, leadsWith]

/-- C8.  First-scheme-wins holds page-locally, not across the whole
crawl: on a single page, when the resolved link list splits as
`pre ++ u :: post` with no link in `pre` sharing `u`'s scheme-less key,
every later link `v` of the same key is dropped by the extractor, `u` is
kept, and exactly one link of that key survives on that page.  Across
pages the property fails: a page fetched later may list the other
scheme's form again, and it then appears in the rendered tree as an
unexpanded leaf (`c8_counterexample`'s web exhibits this). -/
theorem c8_same_page_first_scheme_wins (pageURL : GoURL) (as : List HtmlNode)
    (u v : GoURL) (pre post : List GoURL)
    (hsplit : specResolvedLinks pageURL as = pre ++ u :: post)
    (hpre : ∀ x ∈ pre, withoutScheme x ≠ withoutScheme u)
    (hv : v ∈ post) (hk : withoutScheme v = withoutScheme u) (hne : v ≠ u) :
    u ∈ extractLinks pageURL as [] ∧ v ∉ extractLinks pageURL as [] ∧
    ((extractLinks pageURL as []).filter
        (fun y => withoutScheme y = withoutScheme u)).length = 1 := by
  have he : extractLinks pageURL as [] = dedupByKeyAux (pre ++ u :: post) [] := by
    rw [extractLinks_eq_dedup, hsplit]
  obtain ⟨hin, hout⟩ := dedupByKeyAux_first_in_second_out pre [] u v post
    (List.not_mem_nil _) hpre hv hk hne
  have hu : u ∈ extractLinks pageURL as [] := by rw [he]; exact hin
  refine ⟨hu, ?_, ?_⟩
  · rw [he]; exact hout
  · exact length_filter_eq_one_of_nodup_map withoutScheme
      (extractLinks pageURL as []) (extractLinks_nodup pageURL as) u hu

/-- C8's theorem applied to a page listing `http://h/x` and then
`https://h/x`: the extractor keeps the `http` form, drops the `https`
form, and exactly one link of that key survives. -/
theorem c8_witness :
    specResolvedLinks (hURL "http" "/p")
        [aEl "http://h/x".data, aEl "https://h/x".data] =
      [] ++ hURL "http" "/x" :: [hURL "https" "/x"] ∧
    (hURL "http" "/x" ∈ extractLinks (hURL "http" "/p")
        [aEl "http://h/x".data, aEl "https://h/x".data] [] ∧
      hURL "https" "/x" ∉ extractLinks (hURL "http" "/p")
        [aEl "http://h/x".data, aEl "https://h/x".data] [] ∧
      ((extractLinks (hURL "http" "/p")
          [aEl "http://h/x".data, aEl "https://h/x".data] []).filter
        (fun y => withoutScheme y = withoutScheme (hURL "http" "/x"))).length = 1) :=
  ⟨by decide,
    c8_same_page_first_scheme_wins (hURL "http" "/p")
      [aEl "http://h/x".data, aEl "https://h/x".data]
      (hURL "http" "/x") (hURL "https" "/x") [] [hURL "https" "/x"]
      (by decide) (by simp) (by decide) (by decide) (by decide)⟩
